import Mathlib

/-!
Verification of the poster-extraction backend (`main.py`, `models.py`,
`database.py`): a FastAPI service that extracts event fields from a poster
image via an external model, normalizes the returned date/time strings,
stores the record, and serves read queries.

Strings are modelled as `List Char` (`Str`).  The Python string primitives
used by the source (`str.lower`, `str.replace`, `str.strip`) are embedded
below; `datetime.strptime` is embedded as a token matcher that mirrors the
regexes CPython's `_strptime` compiles for each directive, including their
alternation order and the requirement that the whole input be consumed.
-/

set_option maxHeartbeats 1000000

abbrev Str := List Char

/-- ASCII lower-casing of one character, the per-character action of Python's
`str.lower` on the inputs this code handles. -/
def lowerChar : Char → Char
  | 'A' => 'a' | 'B' => 'b' | 'C' => 'c' | 'D' => 'd' | 'E' => 'e' | 'F' => 'f'
  | 'G' => 'g' | 'H' => 'h' | 'I' => 'i' | 'J' => 'j' | 'K' => 'k' | 'L' => 'l'
  | 'M' => 'm' | 'N' => 'n' | 'O' => 'o' | 'P' => 'p' | 'Q' => 'q' | 'R' => 'r'
  | 'S' => 's' | 'T' => 't' | 'U' => 'u' | 'V' => 'v' | 'W' => 'w' | 'X' => 'x'
  | 'Y' => 'y' | 'Z' => 'z' | c => c

/-- Python `str.lower`. -/
def lowerStr (s : Str) : Str := s.map lowerChar

/-- Whitespace characters stripped by Python's `str.strip()`. -/
def wsB (c : Char) : Bool :=
  c = ' ' || c = '\t' || c = '\n' || c = '\r' || c = '\x0b' || c = '\x0c'

/-- Worker for `replaceL`: a skip counter stands in for dropping the matched
pattern, keeping the recursion structural in the string argument. -/
def replAux (p r : Str) : Nat → Str → Str
  | _, [] => []
  | Nat.succ n, _ :: cs => replAux p r n cs
  | 0, c :: cs =>
    if p.isPrefixOf (c :: cs) then r ++ replAux p r (p.length - 1) cs
    else c :: replAux p r 0 cs

/-- Python `str.replace p r`: left-to-right, non-overlapping replacement of
every occurrence of `p` by `r` (the source only calls it with nonempty `p`). -/
def replaceL (p r s : Str) : Str := replAux p r 0 s

theorem replAux_eq_drop (p r : Str) (n : Nat) (s : Str) :
    replAux p r n s = replaceL p r (s.drop n) := by
  induction s generalizing n with
  | nil => cases n <;> rfl
  | cons c cs ih =>
    cases n with
    | zero => rfl
    | succ m => simpa [replAux] using ih m

/-- The natural unfolding equation of Python `str.replace` on a nonempty
string. -/
theorem replaceL_cons (p r : Str) (c : Char) (cs : Str) :
    replaceL p r (c :: cs) =
      if p.isPrefixOf (c :: cs) then r ++ replaceL p r (cs.drop (p.length - 1))
      else c :: replaceL p r cs := by
  show replAux p r 0 (c :: cs) = _
  rw [replAux]
  rw [replAux_eq_drop]
  rfl

theorem replaceL_nil (p r : Str) : replaceL p r [] = [] := rfl

/-- Leading-whitespace removal (half of Python `str.strip()`). -/
def trimLeftS (s : Str) : Str := s.dropWhile wsB

/-- Trailing-whitespace removal (half of Python `str.strip()`). -/
def trimRightS (s : Str) : Str := (s.reverse.dropWhile wsB).reverse

/-- Python `str.strip()`. -/
def trimS (s : Str) : Str := trimRightS (trimLeftS s)

/-- The word list of `clean_time_string` (main.py line 44). -/
def wordsToRemove : List Str :=
  [ String.toList "onwards", String.toList "onward", String.toList "starting",
    String.toList "from", String.toList "at"]

/-- Embedding of `clean_time_string` (main.py lines 40-51): lower-case, then
for each word `replace(word, '').strip()`, then pad `pm`/`am`, then strip. -/
def clean_time_string (s : Str) : Str :=
  let s1 := wordsToRemove.foldl (fun acc w => trimS (replaceL w [] acc)) (lowerStr s)
  let s2 := replaceL (String.toList "pm") (String.toList " PM") s1
  let s3 := replaceL (String.toList "am") (String.toList " AM") s2
  trimS s3

/-- Cleaning as the specification words it: lower-case the input, remove each
occurrence of the five literal words (plain substring replaces, in the listed
order), pad `pm`/`am`, and trim leading/trailing whitespace once at the end.
This is the spec-side definition for the refinement claim C2; it differs from
`clean_time_string` only in not stripping after each word removal. -/
def cleanSpec (s : Str) : Str :=
  let s1 := wordsToRemove.foldl (fun acc w => replaceL w [] acc) (lowerStr s)
  let s2 := replaceL (String.toList "pm") (String.toList " PM") s1
  let s3 := replaceL (String.toList "am") (String.toList " AM") s2
  trimS s3

/-! ### Whitespace padding lemmas for claim C2

`clean_time_string` strips after each word removal while the spec's
description strips once at the end; the lemmas below show the intermediate
strips are invisible in the final result, because none of the replaced
substrings contains a whitespace character. -/

/-- Every character of the list is whitespace. -/
abbrev allWS (l : Str) : Prop := ∀ c ∈ l, wsB c = true

/-- No character of the list is whitespace. -/
abbrev noWS (l : Str) : Prop := ∀ c ∈ l, wsB c = false

theorem isPrefixOf_eq_true {p s : Str} : p.isPrefixOf s = true ↔ p <+: s :=
  List.isPrefixOf_iff_prefix

/-- A pattern whose head is not whitespace never matches inside an
all-whitespace string. -/
theorem replaceL_allWS {p r s : Str} (c : Char) (p' : Str) (hp : p = c :: p')
    (hc : wsB c = false) (hs : allWS s) : replaceL p r s = s := by
  induction s with
  | nil => rfl
  | cons x xs ih =>
    rw [replaceL_cons]
    have hx : wsB x = true := hs x (by simp)
    have hnp : ¬ p.isPrefixOf (x :: xs) = true := by
      rw [isPrefixOf_eq_true, hp, List.cons_prefix_cons]
      rintro ⟨rfl, -⟩
      rw [hc] at hx
      exact Bool.false_ne_true hx
    rw [if_neg hnp, ih fun d hd => hs d (by simp [hd])]

/-- Replacement skips over an all-whitespace prefix of the string when the
pattern starts with a non-whitespace character. -/
theorem replaceL_ws_left {p r a u : Str} (c : Char) (p' : Str) (hp : p = c :: p')
    (hc : wsB c = false) (ha : allWS a) :
    replaceL p r (a ++ u) = a ++ replaceL p r u := by
  induction a with
  | nil => rfl
  | cons x xs ih =>
    have hx : wsB x = true := ha x (by simp)
    rw [List.cons_append, replaceL_cons]
    have hnp : ¬ p.isPrefixOf (x :: (xs ++ u)) = true := by
      rw [isPrefixOf_eq_true, hp, List.cons_prefix_cons]
      rintro ⟨rfl, -⟩
      rw [hc] at hx
      exact Bool.false_ne_true hx
    rw [if_neg hnp, ih fun d hd => ha d (by simp [hd])]
    simp

/-- Replacement never matches across the boundary into an all-whitespace
suffix when the pattern has no whitespace character. -/
theorem replaceL_ws_right {p r : Str} (hws : noWS p) (hne : p ≠ []) {b : Str}
    (hb : allWS b) : ∀ n (u : Str), u.length ≤ n →
    replaceL p r (u ++ b) = replaceL p r u ++ b := by
  obtain ⟨c, p', hp⟩ : ∃ c p', p = c :: p' := by
    cases p with
    | nil => exact absurd rfl hne
    | cons c p' => exact ⟨c, p', rfl⟩
  have hc : wsB c = false := hws c (by simp [hp])
  intro n
  induction n with
  | zero =>
    intro u hu
    have : u = [] := List.length_eq_zero.mp (Nat.le_zero.mp hu)
    subst this
    simpa using replaceL_allWS c p' hp hc hb
  | succ m ih =>
    intro u hu
    cases u with
    | nil => simpa using replaceL_allWS c p' hp hc hb
    | cons x u' =>
      by_cases hpre : p.isPrefixOf (x :: u' ++ b) = true
      · have hpre' : p <+: (x :: u') ++ b := isPrefixOf_eq_true.mp hpre
        have hlen : p.length ≤ (x :: u').length := by
          by_contra hgt
          push_neg at hgt
          have hxp : (x :: u') <+: p :=
            List.prefix_of_prefix_length_le (List.prefix_append _ b) hpre'
              (Nat.le_of_lt hgt)
          obtain ⟨q, hq⟩ := hxp
          have hqne : q ≠ [] := by
            intro h
            rw [h, List.append_nil] at hq
            rw [← hq] at hgt
            exact Nat.lt_irrefl _ hgt
          obtain ⟨d, q', hd⟩ : ∃ d q', q = d :: q' := by
            cases q with
            | nil => exact absurd rfl hqne
            | cons d q' => exact ⟨d, q', rfl⟩
          -- `d` is a character of `p` but also the head of the part of `b`
          -- that `p` overlaps, contradiction: it would be whitespace.
          obtain ⟨t, ht⟩ := hpre'
          rw [← hq, List.append_assoc] at ht
          have hqt : q ++ t = b := List.append_cancel_left ht
          have hdb : d ∈ b := by
            rw [← hqt, hd]
            simp
          have hdp : d ∈ p := by
            rw [← hq, hd]
            simp
          have h1 := hws d hdp
          have h2 := hb d hdb
          rw [h1] at h2
          exact Bool.false_ne_true h2
        have hpu : p <+: x :: u' :=
          List.prefix_of_prefix_length_le hpre' (List.prefix_append _ b) hlen
        have hpreu : p.isPrefixOf (x :: u') = true := isPrefixOf_eq_true.mpr hpu
        rw [List.cons_append, replaceL_cons, if_pos]
        · rw [replaceL_cons, if_pos hpreu]
          have hd : (u' ++ b).drop (p.length - 1) = u'.drop (p.length - 1) ++ b := by
            apply List.drop_append_of_le_length
            have := hlen
            simp only [List.length_cons] at this
            omega
          rw [hd, ih]
          · simp
          · have h1 : (u'.drop (p.length - 1)).length ≤ u'.length := by
              simp only [List.length_drop]
              omega
            have h2 : u'.length ≤ m := by
              simp only [List.length_cons] at hu
              omega
            omega
        · simpa using hpre
      · have hnpu : ¬ p.isPrefixOf (x :: u') = true := by
          intro h
          apply hpre
          rw [isPrefixOf_eq_true] at h ⊢
          rw [List.cons_append]
          exact h.trans (List.prefix_append _ b)
        rw [List.cons_append, replaceL_cons, if_neg (by simpa using hpre),
          replaceL_cons, if_neg hnpu, ih]
        · simp
        · simp only [List.length_cons] at hu
          omega

/-- `PadRel s t`: `s` is `t` surrounded by (possibly empty) whitespace
padding.  The code's intermediate strips keep the working string `PadRel`-below
the spec's working string. -/
def PadRel (s t : Str) : Prop :=
  ∃ a b, allWS a ∧ allWS b ∧ s = a ++ t ++ b

theorem PadRel.refl (t : Str) : PadRel t t := ⟨[], [], by simp [allWS], by simp [allWS], by simp⟩

theorem PadRel.trans {s t v : Str} (h₁ : PadRel s t) (h₂ : PadRel t v) :
    PadRel s v := by
  obtain ⟨a, b, ha, hb, rfl⟩ := h₁
  obtain ⟨a', b', ha', hb', rfl⟩ := h₂
  refine ⟨a ++ a', b' ++ b, ?_, ?_, by simp⟩
  · intro c hc
    rcases List.mem_append.mp hc with h | h
    · exact ha c h
    · exact ha' c h
  · intro c hc
    rcases List.mem_append.mp hc with h | h
    · exact hb' c h
    · exact hb c h

theorem allWS_takeWhile (l : Str) : allWS (l.takeWhile wsB) :=
  fun _ hc => List.mem_takeWhile_imp hc

theorem allWS_reverse {l : Str} (h : allWS l) : allWS l.reverse :=
  fun c hc => h c (List.mem_reverse.mp hc)

/-- Every string is its stripped core surrounded by whitespace padding. -/
theorem padRel_trim (s : Str) : PadRel s (trimS s) := by
  refine ⟨s.takeWhile wsB, ((trimLeftS s).reverse.takeWhile wsB).reverse,
    allWS_takeWhile s, allWS_reverse (allWS_takeWhile _), ?_⟩
  have h1 : s = s.takeWhile wsB ++ trimLeftS s :=
    (List.takeWhile_append_dropWhile wsB s).symm
  have h2 : trimLeftS s =
      trimS s ++ ((trimLeftS s).reverse.takeWhile wsB).reverse := by
    have h3 : (trimLeftS s).reverse =
        (trimLeftS s).reverse.takeWhile wsB ++ (trimLeftS s).reverse.dropWhile wsB :=
      (List.takeWhile_append_dropWhile wsB _).symm
    have h4 := congrArg List.reverse h3
    rw [List.reverse_reverse, List.reverse_append] at h4
    rw [trimS, trimRightS]
    exact h4
  rw [List.append_assoc, ← h2]
  exact h1

/-- Replacement by a whitespace-free, nonempty pattern preserves `PadRel`. -/
theorem PadRel.replaceL {p : Str} (r : Str) (hws : noWS p) (hne : p ≠ [])
    {s t : Str} (h : PadRel s t) :
    PadRel (replaceL p r s) (replaceL p r t) := by
  obtain ⟨a, b, ha, hb, rfl⟩ := h
  obtain ⟨c, p', hp⟩ : ∃ c p', p = c :: p' := by
    cases p with
    | nil => exact absurd rfl hne
    | cons c p' => exact ⟨c, p', rfl⟩
  have hc : wsB c = false := hws c (by simp [hp])
  refine ⟨a, b, ha, hb, ?_⟩
  rw [List.append_assoc, replaceL_ws_left c p' hp hc ha,
    replaceL_ws_right hws hne hb (t.length) t (Nat.le_refl _), List.append_assoc]

theorem trimLeftS_ws {a u : Str} (ha : allWS a) :
    trimLeftS (a ++ u) = trimLeftS u := by
  induction a with
  | nil => rfl
  | cons x xs ih =>
    have hx : wsB x = true := ha x (by simp)
    simp only [trimLeftS, List.cons_append, List.dropWhile_cons, hx, if_true]
    exact ih fun d hd => ha d (by simp [hd])

theorem trimRightS_ws {u b : Str} (hb : allWS b) :
    trimRightS (u ++ b) = trimRightS u := by
  simp only [trimRightS, List.reverse_append]
  have h := @trimLeftS_ws b.reverse u.reverse (allWS_reverse hb)
  simp only [trimLeftS] at h
  rw [h]

theorem trimLeftS_append_cases (t b : Str) :
    trimLeftS (t ++ b) =
      if trimLeftS t = [] then trimLeftS b else trimLeftS t ++ b := by
  induction t with
  | nil => simp [trimLeftS]
  | cons x t' ih =>
    by_cases hx : wsB x = true
    · simp only [trimLeftS, List.cons_append, List.dropWhile_cons, hx, if_true] at *
      exact ih
    · have hx' : wsB x = false := by
        cases h : wsB x
        · rfl
        · exact absurd h hx
      simp [trimLeftS, List.dropWhile_cons, hx']

theorem allWS_of_trimLeftS_eq_nil {t : Str} (h : trimLeftS t = []) : allWS t :=
  List.dropWhile_eq_nil_iff.mp h

theorem trimS_allWS {t : Str} (h : allWS t) : trimS t = [] := by
  have h1 : trimLeftS t = [] := List.dropWhile_eq_nil_iff.mpr h
  rw [trimS, h1]
  rfl

/-- Strings related by whitespace padding strip to the same string. -/
theorem trimS_of_padRel {s t : Str} (h : PadRel s t) : trimS s = trimS t := by
  obtain ⟨a, b, ha, hb, rfl⟩ := h
  rw [trimS, List.append_assoc, trimLeftS_ws ha, trimLeftS_append_cases]
  by_cases hnil : trimLeftS t = []
  · rw [if_pos hnil]
    have hbws : trimLeftS b = [] := List.dropWhile_eq_nil_iff.mpr hb
    rw [hbws]
    have : trimS t = [] := trimS_allWS (allWS_of_trimLeftS_eq_nil hnil)
    rw [this]
    rfl
  · rw [if_neg hnil, trimRightS_ws hb]
    rfl

/-- Folding word removals: the code's strip-after-each-removal fold stays
`PadRel`-below the spec's plain-removal fold. -/
theorem padRel_foldl_words (ws : List Str)
    (hw : ∀ w ∈ ws, noWS w ∧ w ≠ []) :
    ∀ {y x : Str}, PadRel y x →
      PadRel (ws.foldl (fun acc w => replaceL w [] acc) y)
        (ws.foldl (fun acc w => trimS (replaceL w [] acc)) x) := by
  induction ws with
  | nil => intro y x h; simpa using h
  | cons w ws' ih =>
    intro y x h
    simp only [List.foldl_cons]
    apply ih fun v hv => hw v (by simp [hv])
    have h1 : PadRel (replaceL w [] y) (replaceL w [] x) :=
      PadRel.replaceL [] (hw w (by simp)).1 (hw w (by simp)).2 h
    exact h1.trans (padRel_trim _)

theorem clean_eq_cleanSpec (s : Str) : clean_time_string s = cleanSpec s := by
  have hw : ∀ w ∈ wordsToRemove, noWS w ∧ w ≠ [] := by decide
  have hpm : noWS (String.toList "pm") := by decide
  have ham : noWS (String.toList "am") := by decide
  have h1 : PadRel
      (wordsToRemove.foldl (fun acc w => replaceL w [] acc) (lowerStr s))
      (wordsToRemove.foldl (fun acc w => trimS (replaceL w [] acc)) (lowerStr s)) :=
    padRel_foldl_words wordsToRemove hw (PadRel.refl _)
  have h2 := (h1.replaceL (String.toList " PM") hpm (by decide)).replaceL
    (String.toList " AM") ham (by decide)
  have h3 := trimS_of_padRel h2
  simp only [clean_time_string, cleanSpec]
  exact h3.symm

/-! ### `datetime.strptime` embedding

CPython's `_strptime` translates a format string into a regex: each directive
becomes an ordered alternation of digit patterns (`%I` ↦ `1[0-2]|0[1-9]|[1-9]`,
`%H` ↦ `2[0-3]|[0-1]\d|\d`, `%M` ↦ `[0-5]\d|\d`, `%S` ↦ `6[0-1]|[0-5]\d|\d`,
`%Y` ↦ `\d\d\d\d`, `%m` ↦ `1[0-2]|0[1-9]|[1-9]`, `%d` ↦ `3[01]|[12]\d|0[1-9]|[1-9]`,
`%p` ↦ case-insensitive `AM|PM`), literal characters stay literal, and
whitespace in the format becomes `\s+`.  The match must start at position 0
and consume the whole input (`unconverted data remains` otherwise).  Each
alternative below is listed in the regex's preference order and the matcher
backtracks over them. -/

def digitB (c : Char) : Bool := '0' ≤ c && c ≤ '9'

def digitVal (c : Char) : Nat := c.toNat - 48

def twoDig (a b : Char) : Nat := 10 * digitVal a + digitVal b

/-- Alternatives for `%I` (and `%m`): `1[0-2]|0[1-9]|[1-9]`. -/
def optsI (s : Str) : List (Nat × Str) :=
  (match s with
   | a :: b :: r =>
     (if a = '1' && '0' ≤ b && b ≤ '2' then [(twoDig a b, r)] else []) ++
     (if a = '0' && '1' ≤ b && b ≤ '9' then [(twoDig a b, r)] else [])
   | _ => []) ++
  (match s with
   | a :: r => if '1' ≤ a && a ≤ '9' then [(digitVal a, r)] else []
   | _ => [])

/-- Alternatives for `%H`: `2[0-3]|[0-1]\d|\d`. -/
def optsH (s : Str) : List (Nat × Str) :=
  (match s with
   | a :: b :: r =>
     (if a = '2' && '0' ≤ b && b ≤ '3' then [(twoDig a b, r)] else []) ++
     (if ('0' ≤ a && a ≤ '1') && digitB b then [(twoDig a b, r)] else [])
   | _ => []) ++
  (match s with
   | a :: r => if digitB a then [(digitVal a, r)] else []
   | _ => [])

/-- Alternatives for `%M`: `[0-5]\d|\d`. -/
def optsM (s : Str) : List (Nat × Str) :=
  (match s with
   | a :: b :: r =>
     if ('0' ≤ a && a ≤ '5') && digitB b then [(twoDig a b, r)] else []
   | _ => []) ++
  (match s with
   | a :: r => if digitB a then [(digitVal a, r)] else []
   | _ => [])

/-- Alternatives for `%S`: `6[0-1]|[0-5]\d|\d`. -/
def optsS (s : Str) : List (Nat × Str) :=
  (match s with
   | a :: b :: r =>
     (if a = '6' && '0' ≤ b && b ≤ '1' then [(twoDig a b, r)] else []) ++
     (if ('0' ≤ a && a ≤ '5') && digitB b then [(twoDig a b, r)] else [])
   | _ => []) ++
  (match s with
   | a :: r => if digitB a then [(digitVal a, r)] else []
   | _ => [])

/-- `%Y`: exactly four digits. -/
def optsY (s : Str) : List (Nat × Str) :=
  match s with
  | a :: b :: c :: d :: r =>
    if digitB a && digitB b && digitB c && digitB d then
      [(10 * (10 * (10 * digitVal a + digitVal b) + digitVal c) + digitVal d, r)]
    else []
  | _ => []

/-- Alternatives for `%d`: `3[01]|[12]\d|0[1-9]|[1-9]`. -/
def optsDay (s : Str) : List (Nat × Str) :=
  (match s with
   | a :: b :: r =>
     (if a = '3' && '0' ≤ b && b ≤ '1' then [(twoDig a b, r)] else []) ++
     (if ('1' ≤ a && a ≤ '2') && digitB b then [(twoDig a b, r)] else []) ++
     (if a = '0' && '1' ≤ b && b ≤ '9' then [(twoDig a b, r)] else [])
   | _ => []) ++
  (match s with
   | a :: r => if '1' ≤ a && a ≤ '9' then [(digitVal a, r)] else []
   | _ => [])

/-- `%p`: case-insensitive `AM|PM` (value `true` = PM). -/
def optsP (s : Str) : List (Bool × Str) :=
  match s with
  | a :: b :: r =>
    if lowerChar a = 'a' && lowerChar b = 'm' then [(false, r)]
    else if lowerChar a = 'p' && lowerChar b = 'm' then [(true, r)]
    else []
  | _ => []

/-- Length of the run of leading whitespace. -/
def wsRun (s : Str) : Nat := (s.takeWhile wsB).length

/-- Alternatives for `\s+` (whitespace in the format): the greedy regex
prefers the longest munch; each alternative drops at least one character. -/
def wsOpts (s : Str) : List Str :=
  (List.range (wsRun s)).map fun i => s.drop (wsRun s - i)

/-- Captured groups of a `_strptime` regex match. -/
structure Caps where
  hI : Option Nat := none
  hH : Option Nat := none
  mn : Option Nat := none
  sec : Option Nat := none
  mer : Option Bool := none
  yr : Option Nat := none
  mon : Option Nat := none
  day : Option Nat := none
deriving DecidableEq, Repr

/-- Tokens of a compiled format string. -/
inductive FTok where
  | tI | tH | tM | tS | tY | tMon | tD | tP
  | lit (c : Char)
  | wsp
deriving DecidableEq, Repr

def firstSome (l : List (Option α)) : Option α :=
  l.foldr (fun o acc => o <|> acc) none

/-- Backtracking matcher for a compiled format, requiring full consumption of
the input, as `_strptime` rejects any unconverted trailing data. -/
def runToks : List FTok → Str → Caps → Option Caps
  | [], s, g => if s.isEmpty then some g else none
  | t :: ts, s, g =>
    match t with
    | .lit c =>
      match s with
      | d :: r => if d = c then runToks ts r g else none
      | [] => none
    | .wsp => firstSome ((wsOpts s).map fun r => runToks ts r g)
    | .tI => firstSome ((optsI s).map fun vr => runToks ts vr.2 { g with hI := some vr.1 })
    | .tH => firstSome ((optsH s).map fun vr => runToks ts vr.2 { g with hH := some vr.1 })
    | .tM => firstSome ((optsM s).map fun vr => runToks ts vr.2 { g with mn := some vr.1 })
    | .tS => firstSome ((optsS s).map fun vr => runToks ts vr.2 { g with sec := some vr.1 })
    | .tY => firstSome ((optsY s).map fun vr => runToks ts vr.2 { g with yr := some vr.1 })
    | .tMon => firstSome ((optsI s).map fun vr => runToks ts vr.2 { g with mon := some vr.1 })
    | .tD => firstSome ((optsDay s).map fun vr => runToks ts vr.2 { g with day := some vr.1 })
    | .tP => firstSome ((optsP s).map fun vr => runToks ts vr.2 { g with mer := some vr.1 })

/-- A time-of-day value (hour, minute, second). -/
structure Time where
  h : Nat
  m : Nat
  s : Nat
deriving DecidableEq, Repr

/-- A calendar date. -/
structure Date where
  y : Nat
  m : Nat
  d : Nat
deriving DecidableEq, Repr

/-- Post-processing of matched groups, as `_strptime` computes the hour: `%H`
is taken as-is; `%I` is adjusted by the meridiem, and `12` with no (or an AM)
meridiem becomes `0`.  Minute and second default to `0`; `datetime.time`
rejects a leap second (`%S` may match 60 or 61). -/
def timeOfGrp (g : Caps) : Option Time :=
  let hour :=
    match g.hH with
    | some h => h
    | none =>
      match g.hI with
      | some h =>
        match g.mer with
        | some true => if h ≠ 12 then h + 12 else h
        | _ => if h = 12 then 0 else h
      | none => 0
  let minute := g.mn.getD 0
  let second := g.sec.getD 0
  if second ≤ 59 then some ⟨hour, minute, second⟩ else none

/-- `datetime.strptime(s, fmt).time()` for a pure time format. -/
def strptimeTime (fmt : List FTok) (s : Str) : Option Time :=
  match runToks fmt s {} with
  | none => none
  | some g => timeOfGrp g

/-- The seven formats tried by `analyze_poster` (main.py lines 109-117), in
source order. -/
def fmt_IMp : List FTok := [.tI, .lit ':', .tM, .wsp, .tP]
def fmt_IMp0 : List FTok := [.tI, .lit ':', .tM, .tP]
def fmt_IM : List FTok := [.tI, .lit ':', .tM]
def fmt_HM : List FTok := [.tH, .lit ':', .tM]
def fmt_Ip : List FTok := [.tI, .wsp, .tP]
def fmt_HMS : List FTok := [.tH, .lit ':', .tM, .lit ':', .tS]
def fmt_IMSp : List FTok := [.tI, .lit ':', .tM, .lit ':', .tS, .wsp, .tP]

def timeFormats : List (List FTok) :=
  [fmt_IMp, fmt_IMp0, fmt_IM, fmt_HM, fmt_Ip, fmt_HMS, fmt_IMSp]

/-- The format loop of `analyze_poster` (main.py lines 120-125): first
successful format wins. -/
def tryTimeFormats : List (List FTok) → Str → Option Time
  | [], _ => none
  | f :: fs, s =>
    match strptimeTime f s with
    | some t => some t
    | none => tryTimeFormats fs s

/-! ### Regex fallback of `analyze_poster` (main.py lines 127-146)

The pattern is `(\d{1,2}):?(\d{2})?\s*(am|pm|AM|PM)?` applied with
`re.search`.  Only the hour group is mandatory, so the search succeeds at the
first digit of the string; every later element is optional and can match
empty, so no backtracking across groups is ever needed. -/

/-- The suffix of `s` starting at the first digit, where `re.search` anchors
the match (the pattern's first element `\d{1,2}` is its only mandatory one). -/
def fbSearchPos : Str → Option Str
  | [] => none
  | c :: r => if digitB c then some (c :: r) else fbSearchPos r

/-- Greedy `\d{1,2}` on a digit-headed suffix. -/
def fbHour : Str → Nat × Str
  | a :: b :: r => if digitB b then (twoDig a b, r) else (digitVal a, b :: r)
  | [a] => (digitVal a, [])
  | [] => (0, [])

/-- Greedy optional `:?`. -/
def fbColon : Str → Str
  | ':' :: r => r
  | s => s

/-- Greedy optional `(\d{2})?`; the minute defaults to 0 when absent. -/
def fbMin : Str → Nat × Str
  | a :: b :: r => if digitB a && digitB b then (twoDig a b, r) else (0, a :: b :: r)
  | s => (0, s)

/-- Greedy `\s*`. -/
def fbWs (s : Str) : Str := s.dropWhile wsB

/-- The literal alternation `(am|pm|AM|PM)?` of the source pattern (`true` =
a `pm` marker); mixed casings such as `aM` do not match. -/
def markerCode : Str → Option Bool
  | a :: b :: _ =>
    if a = 'a' && b = 'm' then some false
    else if a = 'p' && b = 'm' then some true
    else if a = 'A' && b = 'M' then some false
    else if a = 'P' && b = 'M' then some true
    else none
  | _ => none

/-- A genuinely case-insensitive am/pm marker, as the specification words the
fallback's meridiem handling (spec-side definition for claim C5). -/
def markerSpec : Str → Option Bool
  | a :: b :: _ =>
    if lowerChar a = 'a' && lowerChar b = 'm' then some false
    else if lowerChar a = 'p' && lowerChar b = 'm' then some true
    else none
  | _ => none

/-- `f"{n:02d}"` for the values the fallback can produce (`n ≤ 111`). -/
def pad2 (n : Nat) : Str :=
  if n < 100 then [Char.ofNat (48 + n / 10), Char.ofNat (48 + n % 10)]
  else [Char.ofNat (48 + n / 100), Char.ofNat (48 + n / 10 % 10), Char.ofNat (48 + n % 10)]

/-- The fallback, parameterized by the marker matcher: extract hour, optional
colon, optional two-digit minute, skip whitespace, read the optional meridiem,
adjust the hour (`pm` and hour ≠ 12 adds 12, `am` and hour = 12 gives 0), and
re-parse the zero-padded `HH:MM` string with `%H:%M`. -/
def fbParse (marker : Str → Option Bool) (s : Str) : Option Time :=
  match fbSearchPos s with
  | none => none
  | some t =>
    let hr := fbHour t
    let mr := fbMin (fbColon hr.2)
    let per := marker (fbWs mr.2)
    let hour :=
      match per with
      | some true => if hr.1 ≠ 12 then hr.1 + 12 else hr.1
      | some false => if hr.1 = 12 then 0 else hr.1
      | none => hr.1
    strptimeTime fmt_HM (pad2 hour ++ ':' :: pad2 mr.1)

/-- The source's regex fallback. -/
def regexFallback (s : Str) : Option Time := fbParse markerCode s

/-- The fallback as the specification describes it, with a case-insensitive
meridiem marker (spec-side definition for claim C5). -/
def fallbackSpec (s : Str) : Option Time := fbParse markerSpec s

/-- Failures of the time-normalization path: `unparseable` is the
`raise ValueError(f"Could not parse time string: {original}")` of main.py
line 146 and carries the original (pre-cleaning) input; `reassembleFailed` is
a `ValueError` escaping the final `strptime` of the fallback (line 144). -/
inductive TimeErr where
  | unparseable (original : Str)
  | reassembleFailed
deriving DecidableEq, Repr

deriving instance DecidableEq for Except

/-- The whole time-normalization flow of `analyze_poster` (main.py lines
106-148): clean, try the seven formats in order, then the regex fallback. -/
def normalizeTime (raw : Str) : Except TimeErr Time :=
  match tryTimeFormats timeFormats (clean_time_string raw) with
  | some t => .ok t
  | none =>
    match fbSearchPos (clean_time_string raw) with
    | none => .error (.unparseable raw)
    | some _ =>
      match regexFallback (clean_time_string raw) with
      | some t => .ok t
      | none => .error .reassembleFailed

/-! ### `datetime.strptime(s, "%Y-%m-%d").date()` (main.py lines 100-103 and
240) -/

def dateFmt : List FTok := [.tY, .lit '-', .tMon, .lit '-', .tD]

def isLeap (y : Nat) : Bool := y % 4 = 0 && (y % 100 ≠ 0 || y % 400 = 0)

def daysInMonth (y m : Nat) : Nat :=
  if m = 2 then (if isLeap y then 29 else 28)
  else if m = 4 || m = 6 || m = 9 || m = 11 then 30
  else 31

/-- Strict `%Y-%m-%d` parsing followed by `datetime.date` validation (year at
least `MINYEAR = 1`, day within the month). -/
def strptimeDate (s : Str) : Option Date :=
  match runToks dateFmt s {} with
  | none => none
  | some g =>
    match g.yr, g.mon, g.day with
    | some y, some m, some d =>
      if 1 ≤ y ∧ d ≤ daysInMonth y m then some ⟨y, m, d⟩ else none
    | _, _, _ => none

theorem tryTimeFormats_cons (f : List FTok) (fs : List (List FTok)) (s : Str) :
    tryTimeFormats (f :: fs) s = (strptimeTime f s <|> tryTimeFormats fs s) := by
  cases h : strptimeTime f s <;> simp [tryTimeFormats, h]

/-- Python `str(h)` for `h ≤ 99`: the hour as typed in a `h:mm AM/PM` input. -/
def hourStr (h : Nat) : Str :=
  if h < 10 then [Char.ofNat (48 + h)]
  else [Char.ofNat (48 + h / 10), Char.ofNat (48 + h % 10)]

/-- The family of `h:mm AM/PM` inputs of claim C3 (`mer = true` for PM). -/
def ampmStr (h m : Nat) (mer : Bool) : Str :=
  hourStr h ++ ':' :: pad2 m ++ String.toList (if mer then " PM" else " AM")

theorem ampm_ball : ∀ h < 12, ∀ m < 60,
    normalizeTime (ampmStr (h + 1) m true) =
      .ok ⟨if h + 1 = 12 then 12 else h + 13, m, 0⟩ ∧
    normalizeTime (ampmStr (h + 1) m false) =
      .ok ⟨if h + 1 = 12 then 0 else h + 1, m, 0⟩ := by decide

/-! ### Reachability invariant for claim C5

`clean_time_string` lower-cases its input and re-inserts upper-case letters
only as the blocks `" PM"` / `" AM"`, so a cleaned string never contains a
mixed-case meridiem (`aM`, `Am`, `pM`, `Pm`) — the only strings on which the
source's literal `(am|pm|AM|PM)` alternation differs from a genuinely
case-insensitive marker. -/

/-- A mixed-case meridiem pair. -/
def isBadPair (a b : Char) : Bool :=
  (a = 'a' && b = 'M') || (a = 'A' && b = 'm') ||
  (a = 'p' && b = 'M') || (a = 'P' && b = 'm')

/-- No two adjacent characters form a mixed-case meridiem pair. -/
def NoMixPairs : Str → Prop
  | [] => True
  | [_] => True
  | a :: b :: t => isBadPair a b = false ∧ NoMixPairs (b :: t)

/-- The string contains none of the letters `M`, `A`, `P`. -/
abbrev noMAP (s : Str) : Prop := ∀ c ∈ s, c ≠ 'M' ∧ c ≠ 'A' ∧ c ≠ 'P'

/-- The string contains no letter `A`. -/
abbrev noA (s : Str) : Prop := ∀ c ∈ s, c ≠ 'A'

theorem noMixPairs_cons_iff (x : Char) (l : Str) :
    NoMixPairs (x :: l) ↔
      (∀ y, l.head? = some y → isBadPair x y = false) ∧ NoMixPairs l := by
  cases l with
  | nil => simp [NoMixPairs]
  | cons y t =>
    constructor
    · rintro ⟨h1, h2⟩
      exact ⟨fun z hz => by cases hz; exact h1, h2⟩
    · rintro ⟨h1, h2⟩
      exact ⟨h1 y rfl, h2⟩

theorem noMixPairs_tail {x : Char} {l : Str} (h : NoMixPairs (x :: l)) :
    NoMixPairs l := ((noMixPairs_cons_iff x l).mp h).2

theorem noMixPairs_append_left {u w : Str} (h : NoMixPairs (u ++ w)) :
    NoMixPairs w := by
  induction u with
  | nil => exact h
  | cons x u' ih => exact ih (noMixPairs_tail h)

theorem noMixPairs_append_right {w v : Str} (h : NoMixPairs (w ++ v)) :
    NoMixPairs w := by
  induction w with
  | nil => trivial
  | cons x w' ih =>
    rw [List.cons_append] at h
    rw [noMixPairs_cons_iff] at h ⊢
    refine ⟨?_, ih h.2⟩
    intro y hy
    apply h.1
    cases w' with
    | nil => cases hy
    | cons z t => cases hy; rfl

theorem noMixPairs_of_isInfix {s t : Str} (h : NoMixPairs s) (hi : t <:+: s) :
    NoMixPairs t := by
  obtain ⟨u, v, rfl⟩ := hi
  rw [List.append_assoc] at h
  exact noMixPairs_append_right (noMixPairs_append_left h)

theorem lowerChar_ne_MAP (c : Char) :
    lowerChar c ≠ 'M' ∧ lowerChar c ≠ 'A' ∧ lowerChar c ≠ 'P' := by
  unfold lowerChar
  split <;> simp_all

theorem lowerStr_noMAP (s : Str) : noMAP (lowerStr s) := by
  intro c hc
  obtain ⟨d, -, rfl⟩ := List.mem_map.mp hc
  exact lowerChar_ne_MAP d

/-- Characters of a replacement output come from the replacement or the
input. -/
theorem replaceL_chars {p r : Str} :
    ∀ n (s : Str), s.length ≤ n → ∀ c ∈ replaceL p r s, c ∈ r ∨ c ∈ s := by
  intro n
  induction n with
  | zero =>
    intro s hs c hc
    have : s = [] := List.length_eq_zero.mp (Nat.le_zero.mp hs)
    subst this
    cases hc
  | succ m ih =>
    intro s hs c hc
    cases s with
    | nil => cases hc
    | cons x xs =>
      rw [replaceL_cons] at hc
      by_cases hpre : p.isPrefixOf (x :: xs) = true
      · rw [if_pos hpre] at hc
        rcases List.mem_append.mp hc with h | h
        · exact Or.inl h
        · rcases ih (xs.drop (p.length - 1)) (by simp only [List.length_drop]; simp only [List.length_cons] at hs; omega) c h with h' | h'
          · exact Or.inl h'
          · exact Or.inr (by simp [List.mem_of_mem_drop h'])
      · rw [if_neg hpre] at hc
        rcases List.mem_cons.mp hc with h | h
        · exact Or.inr (by simp [h])
        · rcases ih xs (by simp only [List.length_cons] at hs; omega) c h with h' | h'
          · exact Or.inl h'
          · exact Or.inr (by simp [h'])

theorem trimLeftS_suffix (s : Str) : trimLeftS s <:+ s := List.dropWhile_suffix wsB

theorem trimS_isInfixOfSelf (s : Str) : trimS s <:+: s := by
  have h1 : trimLeftS s <:+ s := trimLeftS_suffix s
  have h2 : trimRightS (trimLeftS s) <+: trimLeftS s := by
    rw [trimRightS, ← List.reverse_suffix]
    simpa using List.dropWhile_suffix wsB
  exact h2.isInfix.trans h1.isInfix

theorem trimS_subset (s : Str) : ∀ c ∈ trimS s, c ∈ s :=
  fun _ hc => (trimS_isInfixOfSelf s).subset hc

theorem isBadPair_first {x y : Char} (h : isBadPair x y = true) :
    x = 'a' ∨ x = 'A' ∨ x = 'p' ∨ x = 'P' := by
  simp only [isBadPair, Bool.or_eq_true, Bool.and_eq_true, decide_eq_true_eq] at h
  rcases h with ((⟨h1, -⟩ | ⟨h1, -⟩) | ⟨h1, -⟩) | ⟨h1, -⟩ <;> simp [h1]

theorem isBadPair_second {x y : Char} (h : isBadPair x y = true) :
    y = 'm' ∨ y = 'M' := by
  simp only [isBadPair, Bool.or_eq_true, Bool.and_eq_true, decide_eq_true_eq] at h
  rcases h with ((⟨-, h1⟩ | ⟨-, h1⟩) | ⟨-, h1⟩) | ⟨-, h1⟩ <;> simp [h1]

/-- Shape of a replacement output: empty, starting with the replacement, or
starting with the input's head character. -/
theorem replaceL_shape (p r : Str) (s : Str) :
    replaceL p r s = [] ∨ (∃ t, replaceL p r s = r ++ t) ∨
      (∃ c cs t, s = c :: cs ∧ replaceL p r s = c :: t) := by
  cases s with
  | nil => exact Or.inl rfl
  | cons c cs =>
    rw [replaceL_cons]
    by_cases hp : p.isPrefixOf (c :: cs) = true
    · rw [if_pos hp]
      exact Or.inr (Or.inl ⟨_, rfl⟩)
    · rw [if_neg hp]
      exact Or.inr (Or.inr ⟨c, cs, _, rfl, rfl⟩)

theorem noMixPairs_drop {s : Str} (h : NoMixPairs s) (k : Nat) :
    NoMixPairs (s.drop k) := noMixPairs_of_isInfix h (List.drop_suffix k s).isInfix

/-- After the `pm → " PM"` replace on a string with no `M`/`A`/`P`, no
mixed-case meridiem pair exists and the string still has no `A`. -/
theorem pmStep : ∀ n (s : Str), s.length ≤ n → noMAP s →
    NoMixPairs (replaceL (String.toList "pm") (String.toList " PM") s) := by
  intro n
  induction n with
  | zero =>
    intro s hs _
    have : s = [] := List.length_eq_zero.mp (Nat.le_zero.mp hs)
    subst this
    trivial
  | succ m ih =>
    intro s hs hmap
    cases s with
    | nil => trivial
    | cons c cs =>
      rw [replaceL_cons]
      by_cases hp : (String.toList "pm").isPrefixOf (c :: cs) = true
      · rw [if_pos hp]
        have hrest : NoMixPairs
            (replaceL (String.toList "pm") (String.toList " PM")
              (cs.drop ((String.toList "pm").length - 1))) := by
          apply ih
          · simp only [List.length_drop]
            simp only [List.length_cons] at hs
            omega
          · intro d hd
            exact hmap d (by simp [List.mem_of_mem_drop hd])
        show NoMixPairs (' ' :: 'P' :: 'M' :: _)
        rw [noMixPairs_cons_iff]
        refine ⟨fun y hy => by cases hy; decide, ?_⟩
        rw [noMixPairs_cons_iff]
        refine ⟨fun y hy => by cases hy; decide, ?_⟩
        rw [noMixPairs_cons_iff]
        refine ⟨?_, hrest⟩
        intro y hy
        rw [Bool.eq_false_iff]
        intro hbad
        rcases isBadPair_first hbad with h1 | h1 | h1 | h1 <;> exact absurd h1 (by decide)
      · rw [if_neg hp]
        have hcs : NoMixPairs (replaceL (String.toList "pm") (String.toList " PM") cs) := by
          apply ih
          · simp only [List.length_cons] at hs
            omega
          · intro d hd
            exact hmap d (by simp [hd])
        rw [noMixPairs_cons_iff]
        refine ⟨?_, hcs⟩
        intro y hy
        rw [Bool.eq_false_iff]
        intro hbad
        have hc := hmap c (by simp)
        rcases isBadPair_first hbad with h1 | h1 | h1 | h1
        · -- c = 'a': the second component must be `M`, impossible
          rcases isBadPair_second hbad with h2 | h2
          · rw [h1, h2] at hbad
            exact absurd hbad (by decide)
          · -- y = 'M': but the head of the output is ' ' or a character of cs
            rcases replaceL_shape (String.toList "pm") (String.toList " PM") cs with
              hsh | ⟨t, hsh⟩ | ⟨d, ds, t, hds, hsh⟩
            · rw [hsh] at hy
              cases hy
            · rw [hsh] at hy
              cases hy
              exact absurd h2 (by decide)
            · rw [hsh] at hy
              cases hy
              exact ((hmap y (by simp [hds])).1) h2
        · exact (hc.2.1) h1
        · rcases isBadPair_second hbad with h2 | h2
          · rw [h1, h2] at hbad
            exact absurd hbad (by decide)
          · rcases replaceL_shape (String.toList "pm") (String.toList " PM") cs with
              hsh | ⟨t, hsh⟩ | ⟨d, ds, t, hds, hsh⟩
            · rw [hsh] at hy
              cases hy
            · rw [hsh] at hy
              cases hy
              exact absurd h2 (by decide)
            · rw [hsh] at hy
              cases hy
              exact ((hmap y (by simp [hds])).1) h2
        · exact (hc.2.2) h1

theorem pmStep_noA {s : Str} (hmap : noMAP s) :
    noA (replaceL (String.toList "pm") (String.toList " PM") s) := by
  intro c hc
  rcases replaceL_chars s.length s (Nat.le_refl _) c hc with h | h
  · intro he
    subst he
    revert h
    decide
  · exact (hmap c h).2.1

/-- The `am → " AM"` replace preserves the absence of mixed-case meridiem
pairs. -/
theorem amStep : ∀ n (s : Str), s.length ≤ n → NoMixPairs s →
    NoMixPairs (replaceL (String.toList "am") (String.toList " AM") s) := by
  intro n
  induction n with
  | zero =>
    intro s hs _
    have : s = [] := List.length_eq_zero.mp (Nat.le_zero.mp hs)
    subst this
    trivial
  | succ m ih =>
    intro s hs hmix
    cases s with
    | nil => trivial
    | cons c cs =>
      rw [replaceL_cons]
      by_cases hp : (String.toList "am").isPrefixOf (c :: cs) = true
      · rw [if_pos hp]
        have hrest : NoMixPairs
            (replaceL (String.toList "am") (String.toList " AM")
              (cs.drop ((String.toList "am").length - 1))) := by
          apply ih
          · simp only [List.length_drop]
            simp only [List.length_cons] at hs
            omega
          · exact noMixPairs_drop (noMixPairs_tail hmix) _
        show NoMixPairs (' ' :: 'A' :: 'M' :: _)
        rw [noMixPairs_cons_iff]
        refine ⟨fun y hy => by cases hy; decide, ?_⟩
        rw [noMixPairs_cons_iff]
        refine ⟨fun y hy => by cases hy; decide, ?_⟩
        rw [noMixPairs_cons_iff]
        refine ⟨?_, hrest⟩
        intro y hy
        rw [Bool.eq_false_iff]
        intro hbad
        rcases isBadPair_first hbad with h1 | h1 | h1 | h1 <;> exact absurd h1 (by decide)
      · rw [if_neg hp]
        have hcs : NoMixPairs (replaceL (String.toList "am") (String.toList " AM") cs) := by
          apply ih
          · simp only [List.length_cons] at hs
            omega
          · exact noMixPairs_tail hmix
        rw [noMixPairs_cons_iff]
        refine ⟨?_, hcs⟩
        intro y hy
        rw [Bool.eq_false_iff]
        intro hbad
        rcases replaceL_shape (String.toList "am") (String.toList " AM") cs with
          hsh | ⟨t, hsh⟩ | ⟨d, ds, t, hds, hsh⟩
        · rw [hsh] at hy
          cases hy
        · rw [hsh] at hy
          cases hy
          rcases isBadPair_second hbad with h2 | h2 <;> exact absurd h2 (by decide)
        · rw [hsh] at hy
          cases hy
          have hadj : isBadPair c y = false := by
            rw [hds] at hmix
            exact ((noMixPairs_cons_iff c (y :: ds)).mp hmix).1 y rfl
          rw [hadj] at hbad
          exact Bool.false_ne_true hbad

theorem noMAP_trimS {s : Str} (h : noMAP s) : noMAP (trimS s) :=
  fun c hc => h c (trimS_subset s c hc)

theorem noMAP_replaceL_nil {w s : Str} (h : noMAP s) :
    noMAP (replaceL w [] s) := by
  intro c hc
  rcases replaceL_chars s.length s (Nat.le_refl _) c hc with h' | h'
  · cases h'
  · exact h c h'

theorem noMAP_words_fold (ws : List Str) :
    ∀ {x : Str}, noMAP x →
      noMAP (ws.foldl (fun acc w => trimS (replaceL w [] acc)) x) := by
  induction ws with
  | nil => intro x h; exact h
  | cons w ws' ih =>
    intro x h
    exact ih (noMAP_trimS (noMAP_replaceL_nil h))

/-- Mixed-case-pair freeness as an infix statement (equivalent to
`NoMixPairs`, but stated without pattern matching on the string). -/
def NoMix (s : Str) : Prop := ∀ a b : Char, [a, b] <:+: s → isBadPair a b = false

theorem noMixPairs_of_noMix : ∀ {s : Str}, NoMix s → NoMixPairs s := by
  intro s
  induction s with
  | nil => intro _; trivial
  | cons x l ih =>
    intro h
    rw [noMixPairs_cons_iff]
    constructor
    · intro y hy
      apply h
      cases l with
      | nil => cases hy
      | cons z t =>
        cases hy
        exact ⟨[], t, rfl⟩
    · apply ih
      intro a b hab
      apply h
      obtain ⟨u, v, huv⟩ := hab
      exact ⟨x :: u, v, by rw [← huv]; rfl⟩

theorem noMix_of_noMixPairs {s : Str} (h : NoMixPairs s) : NoMix s := by
  intro a b hab
  have h2 : NoMixPairs [a, b] := noMixPairs_of_isInfix h hab
  exact h2.1

/-- A cleaned time string never contains a mixed-case meridiem pair (infix
form). -/
theorem clean_noMix (raw : Str) : NoMix (clean_time_string raw) := by
  unfold clean_time_string
  have h0 : noMAP
      (wordsToRemove.foldl (fun acc w => trimS (replaceL w [] acc)) (lowerStr raw)) :=
    noMAP_words_fold wordsToRemove (lowerStr_noMAP raw)
  generalize hx : wordsToRemove.foldl
      (fun acc w => trimS (replaceL w [] acc)) (lowerStr raw) = x at h0 ⊢
  have h2 := pmStep x.length x (Nat.le_refl _) h0
  have h3 := amStep _ _ (Nat.le_refl _) h2
  exact noMix_of_noMixPairs (noMixPairs_of_isInfix h3 (trimS_isInfixOfSelf _))

theorem lowerChar_eq_a {c : Char} : lowerChar c = 'a' ↔ c = 'a' ∨ c = 'A' := by
  unfold lowerChar
  split <;> simp_all

theorem lowerChar_eq_m {c : Char} : lowerChar c = 'm' ↔ c = 'm' ∨ c = 'M' := by
  unfold lowerChar
  split <;> simp_all

theorem lowerChar_eq_p {c : Char} : lowerChar c = 'p' ↔ c = 'p' ∨ c = 'P' := by
  unfold lowerChar
  split <;> simp_all

/-- On strings free of mixed-case meridiem pairs, the source's literal
`am|pm|AM|PM` alternation agrees with a case-insensitive marker. -/
theorem marker_agree : ∀ {r : Str}, NoMixPairs r → markerCode r = markerSpec r := by
  intro r h
  match r with
  | [] => rfl
  | [a] => rfl
  | a :: b :: t =>
    have hab : isBadPair a b = false := ((noMixPairs_cons_iff a (b :: t)).mp h).1 b rfl
    show markerCode (a :: b :: t) = markerSpec (a :: b :: t)
    simp only [markerCode, markerSpec]
    by_cases h1 : a = 'a'
    · subst h1
      by_cases h2 : b = 'm'
      · subst h2; rfl
      · by_cases h3 : b = 'M'
        · subst h3; exact absurd hab (by decide)
        · have hb : ¬ lowerChar b = 'm' := fun hh => by
            rcases lowerChar_eq_m.mp hh with h' | h'
            · exact h2 h'
            · exact h3 h'
          simp [h2, h3, hb, show lowerChar 'a' = 'a' from rfl]
    · by_cases h1' : a = 'A'
      · subst h1'
        by_cases h2 : b = 'M'
        · subst h2; rfl
        · by_cases h3 : b = 'm'
          · subst h3; exact absurd hab (by decide)
          · have hb : ¬ lowerChar b = 'm' := fun hh => by
              rcases lowerChar_eq_m.mp hh with h' | h'
              · exact h3 h'
              · exact h2 h'
            simp [h2, h3, hb, show lowerChar 'A' = 'a' from rfl]
      · by_cases h4 : a = 'p'
        · subst h4
          by_cases h2 : b = 'm'
          · subst h2; rfl
          · by_cases h3 : b = 'M'
            · subst h3; exact absurd hab (by decide)
            · have hb : ¬ lowerChar b = 'm' := fun hh => by
                rcases lowerChar_eq_m.mp hh with h' | h'
                · exact h2 h'
                · exact h3 h'
              simp [h2, h3, hb, show lowerChar 'p' = 'p' from rfl]
        · by_cases h5 : a = 'P'
          · subst h5
            by_cases h2 : b = 'M'
            · subst h2; rfl
            · by_cases h3 : b = 'm'
              · subst h3; exact absurd hab (by decide)
              · have hb : ¬ lowerChar b = 'm' := fun hh => by
                  rcases lowerChar_eq_m.mp hh with h' | h'
                  · exact h3 h'
                  · exact h2 h'
                simp [h2, h3, hb, show lowerChar 'P' = 'p' from rfl]
          · have hA : ¬ lowerChar a = 'a' := fun hh => by
              rcases lowerChar_eq_a.mp hh with h' | h'
              · exact h1 h'
              · exact h1' h'
            have hP : ¬ lowerChar a = 'p' := fun hh => by
              rcases lowerChar_eq_p.mp hh with h' | h'
              · exact h4 h'
              · exact h5 h'
            simp [h1, h1', h4, h5, hA, hP]

theorem fbSearchPos_suffix : ∀ {s t : Str}, fbSearchPos s = some t → t <:+ s := by
  intro s
  induction s with
  | nil => intro t h; cases h
  | cons c r ih =>
    intro t h
    rw [fbSearchPos] at h
    by_cases hc : digitB c = true
    · rw [if_pos hc] at h
      cases h
      exact List.suffix_refl _
    · rw [if_neg hc] at h
      exact (ih h).trans (List.suffix_cons c r)

theorem fbHour_suffix (t : Str) : (fbHour t).2 <:+ t := by
  match t with
  | [] => exact List.suffix_refl _
  | [a] => exact List.nil_suffix
  | a :: b :: r =>
    rw [fbHour]
    by_cases hb : digitB b = true
    · rw [if_pos hb]
      exact ((List.suffix_cons b r).trans (List.suffix_cons a (b :: r)))
    · rw [if_neg hb]
      exact List.suffix_cons a (b :: r)

theorem fbColon_suffix (t : Str) : fbColon t <:+ t := by
  unfold fbColon
  split
  · exact List.suffix_cons ':' _
  · exact List.suffix_refl _

theorem fbMin_suffix (t : Str) : (fbMin t).2 <:+ t := by
  match t with
  | [] => exact List.suffix_refl _
  | [a] => exact List.suffix_refl _
  | a :: b :: r =>
    rw [fbMin]
    by_cases hd : (digitB a && digitB b) = true
    · rw [if_pos hd]
      exact ((List.suffix_cons b r).trans (List.suffix_cons a (b :: r)))
    · rw [if_neg hd]

theorem fbWs_suffix (t : Str) : fbWs t <:+ t := List.dropWhile_suffix wsB

/-- On strings without mixed-case meridiem pairs the fallback is blind to the
marker matcher's casing. -/
theorem fbParse_marker_eq {s : Str} (h : NoMixPairs s) :
    fbParse markerCode s = fbParse markerSpec s := by
  unfold fbParse
  cases hsp : fbSearchPos s with
  | none => rfl
  | some t =>
    have hts : t <:+ s := fbSearchPos_suffix hsp
    have hsuf : fbWs (fbMin (fbColon (fbHour t).2)).2 <:+ s :=
      ((((fbWs_suffix _).trans (fbMin_suffix _)).trans (fbColon_suffix _)).trans
        (fbHour_suffix t)).trans hts
    have hmix : NoMixPairs (fbWs (fbMin (fbColon (fbHour t).2)).2) :=
      noMixPairs_of_isInfix h hsuf.isInfix
    simp only [marker_agree hmix]

theorem fbParse_marker_eq_noMix {s : Str} (h : NoMix s) :
    fbParse markerCode s = fbParse markerSpec s :=
  fbParse_marker_eq (noMixPairs_of_noMix h)

/-! ### Data model and store (models.py, main.py read endpoints)

The `posters` table row (models.py lines 15-27).  The store is modelled as a
list of rows; SQLAlchemy query chains become filter/sort expressions with SQL
semantics: a comparison or `ilike` on a NULL column is not satisfied, and
`order_by` ascending puts NULLs last (PostgreSQL default). -/

structure Poster where
  id : Nat
  title : Option Str
  name : Option Str
  location : Option Str
  socials : Option Str
  event_date : Option Date
  event_time : Option Time
  venue : Option Str
  hosted_department : Option Str
  created_at : Nat
deriving DecidableEq, Repr

def dateKey (d : Date) : Nat := d.y * 10000 + d.m * 100 + d.d

def timeKey (t : Time) : Nat := t.h * 3600 + t.m * 60 + t.s

/-- Sort key for `order_by(Poster.event_date)`: ascending, NULLs last. -/
def posterDateKey (p : Poster) : Nat :=
  match p.event_date with
  | some d => dateKey d
  | none => 100000000

/-- Sort key for `order_by(Poster.event_time)`: ascending, NULLs last. -/
def posterTimeKey (p : Poster) : Nat :=
  match p.event_time with
  | some t => timeKey t
  | none => 100000000

def dateLe (a b : Poster) : Prop := posterDateKey a ≤ posterDateKey b

instance : DecidableRel dateLe := fun p q => Nat.decLe (posterDateKey p) (posterDateKey q)

instance : IsTotal Poster dateLe := ⟨fun p q => Nat.le_total (posterDateKey p) (posterDateKey q)⟩

instance : IsTrans Poster dateLe := ⟨fun _ _ _ => Nat.le_trans⟩

def timeLe (a b : Poster) : Prop := posterTimeKey a ≤ posterTimeKey b

instance : DecidableRel timeLe := fun p q => Nat.decLe (posterTimeKey p) (posterTimeKey q)

instance : IsTotal Poster timeLe := ⟨fun p q => Nat.le_total (posterTimeKey p) (posterTimeKey q)⟩

instance : IsTrans Poster timeLe := ⟨fun _ _ _ => Nat.le_trans⟩

def sortByDate (l : List Poster) : List Poster := l.insertionSort dateLe

def sortByTime (l : List Poster) : List Poster := l.insertionSort timeLe

/-- Does the predicate hold of some suffix? (`%` consumes any prefix.) -/
def anySuffix (f : Str → Bool) : Str → Bool
  | [] => f []
  | c :: s => f (c :: s) || anySuffix f s

/-- `_`: consume exactly one character. -/
def uscoreStep (rec : Str → Bool) : Str → Bool
  | [] => false
  | _ :: s2 => rec s2

/-- An ordinary pattern character: case-insensitive comparison. -/
def charStep (c : Char) (rec : Str → Bool) : Str → Bool
  | [] => false
  | d :: s2 => decide (lowerChar c = lowerChar d) && rec s2

/-- PostgreSQL `ILIKE` pattern matching: `%` matches any sequence, `_` any
single character, ordinary characters compare case-insensitively.  Backslash
escapes are outside this model (every theorem below restricts queries to
strings without `%`, `_` and `\\`, on which escapes never arise; the one
counterexample uses a plain `%`). -/
def likeMatch : Str → Str → Bool
  | [], s => s.isEmpty
  | c :: p, s =>
    if c = '%' then anySuffix (likeMatch p) s
    else if c = '_' then uscoreStep (likeMatch p) s
    else charStep c (likeMatch p) s

/-- `Poster.<field>.ilike(f"%{q}%")`: NULL fields never match. -/
def fieldLike (field : Option Str) (q : Str) : Bool :=
  match field with
  | some v => likeMatch ('%' :: q ++ ['%']) v
  | none => false

/-- `Poster.event_date >= today`: NULL dates never satisfy the comparison. -/
def upcomingB (today : Date) (p : Poster) : Bool :=
  match p.event_date with
  | some d => decide (dateKey today ≤ dateKey d)
  | none => false

/-- The ORM query of `get_upcoming_events` (main.py lines 184-186). -/
def queryUpcomingStore (today : Date) (st : List Poster) : List Poster :=
  sortByDate (st.filter (upcomingB today))

/-- The ORM query of `get_events_by_location` (main.py lines 211-217). -/
def queryByLocationStore (today : Date) (q : Str) (upOnly : Bool)
    (st : List Poster) : List Poster :=
  sortByDate (st.filter fun p => fieldLike p.location q && (!upOnly || upcomingB today p))

/-- The ORM query of `get_events_by_venue` (main.py lines 272-278). -/
def queryByVenueStore (today : Date) (q : Str) (upOnly : Bool)
    (st : List Poster) : List Poster :=
  sortByDate (st.filter fun p => fieldLike p.venue q && (!upOnly || upcomingB today p))

/-- The ORM query of `get_events_by_department` (main.py lines 303-309). -/
def queryByDepartmentStore (today : Date) (q : Str) (upOnly : Bool)
    (st : List Poster) : List Poster :=
  sortByDate (st.filter fun p => fieldLike p.hosted_department q && (!upOnly || upcomingB today p))

/-- The ORM query of `get_events_by_date` (main.py lines 245-247). -/
def queryByDateStore (d : Date) (st : List Poster) : List Poster :=
  sortByTime (st.filter fun p => decide (p.event_date = some d))

/-- Python exceptions relevant to the handlers. -/
inductive PyExc where
  | httpException (status : Nat) (detail : Str)
  | valueError (msg : Str)
  | jsonDecodeError
  | typeError
  | attributeError
  | externalError
deriving DecidableEq, Repr

/-- A `try` block with one `except` clause. -/
def tryCatch (body : Except PyExc α) (canHandle : PyExc → Bool)
    (handler : PyExc → Except PyExc α) : Except PyExc α :=
  match body with
  | .ok a => .ok a
  | .error e => if canHandle e then handler e else .error e

/-- The HTTP status the caller observes: 200 on success, the status of a
raised `HTTPException`, or FastAPI's generic 500 for any other exception. -/
def observedStatus : Except PyExc α → Nat
  | .ok _ => 200
  | .error (.httpException st _) => st
  | .error _ => 500

/-- One serialized event of the read endpoints' response arrays;
`event_date.isoformat()` is unconditional, so serialization needs a present
`event_date`, while `event_time` is guarded by `if event.event_time`. -/
structure SEvent where
  id : Nat
  title : Option Str
  name : Option Str
  location : Option Str
  socials : Option Str
  event_date : Date
  event_time : Option Time
  venue : Option Str
  hosted_department : Option Str
deriving DecidableEq, Repr

/-- Serialization of one row (main.py lines 189-199 and the three copies):
`None.isoformat()` raises `AttributeError` when `event_date` is NULL. -/
def serializeEvent (p : Poster) : Except PyExc SEvent :=
  match p.event_date with
  | none => .error .attributeError
  | some d =>
    .ok ⟨p.id, p.title, p.name, p.location, p.socials, d, p.event_time,
      p.venue, p.hosted_department⟩

/-- The list comprehension over query results: first failure aborts. -/
def serializeAll : List Poster → Except PyExc (List SEvent)
  | [] => .ok []
  | p :: ps =>
    match serializeEvent p with
    | .error e => .error e
    | .ok v =>
      match serializeAll ps with
      | .error e => .error e
      | .ok vs => .ok (v :: vs)

/-- The `except Exception as e: raise HTTPException(status_code=500, ...)`
wrapper every handler ends with; it also catches `HTTPException`s raised in
the body, because `HTTPException` subclasses `Exception`. -/
def catchAll (body : Except PyExc α) : Except PyExc α :=
  tryCatch body (fun _ => true) (fun _ => .error (.httpException 500 []))

/-- `GET /events/upcoming` (main.py lines 177-202). -/
def getUpcomingEvents (today : Date) (st : List Poster) :
    Except PyExc (List SEvent) :=
  catchAll (serializeAll (queryUpcomingStore today st))

/-- `GET /events/by-location/{location}` (main.py lines 204-233). -/
def getEventsByLocation (today : Date) (loc : Str) (upOnly : Bool)
    (st : List Poster) : Except PyExc (List SEvent) :=
  catchAll (serializeAll (queryByLocationStore today loc upOnly st))

/-- `GET /events/by-venue/{venue}` (main.py lines 265-294). -/
def getEventsByVenue (today : Date) (q : Str) (upOnly : Bool)
    (st : List Poster) : Except PyExc (List SEvent) :=
  catchAll (serializeAll (queryByVenueStore today q upOnly st))

/-- `GET /events/by-department/{department}` (main.py lines 296-325). -/
def getEventsByDepartment (today : Date) (q : Str) (upOnly : Bool)
    (st : List Poster) : Except PyExc (List SEvent) :=
  catchAll (serializeAll (queryByDepartmentStore today q upOnly st))

/-- `GET /events/by-date/{date}` (main.py lines 235-263): the inner `try`
turns a `ValueError` from `strptime` into an `HTTPException(400)`, which the
enclosing `except Exception` then converts to a 500. -/
def getEventsByDate (ds : Str) (st : List Poster) : Except PyExc (List SEvent) :=
  catchAll
    (match strptimeDate ds with
     | none =>
       .error (.httpException 400 (String.toList "Invalid date format. Use YYYY-MM-DD"))
     | some d => serializeAll (queryByDateStore d st))

/-! ### POST /analyze-poster (main.py lines 53-175)

The image decoding, model call and `json.loads` are external collaborators.
The image and model outcomes are inputs of the handler model; `json.loads` is
modelled for the shape the prompt requests (a flat object of string or null
values, without escape sequences) — any other text is a parse failure, which
reaches the same `except` clauses as a real `json.JSONDecodeError`. -/

inductive JVal where
  | jstr (s : Str)
  | jnull
deriving DecidableEq, Repr

def jsonWsB (c : Char) : Bool := c = ' ' || c = '\t' || c = '\n' || c = '\r'

def skipW (s : Str) : Str := s.dropWhile jsonWsB

/-- String literal body after the opening quote (escape-free model). -/
def parseStrLit : Str → Option (Str × Str)
  | [] => none
  | '"' :: r => some ([], r)
  | '\\' :: _ => none
  | c :: r =>
    match parseStrLit r with
    | some (v, rest) => some (c :: v, rest)
    | none => none

def parseVal (s : Str) : Option (JVal × Str) :=
  match skipW s with
  | '"' :: r => (parseStrLit r).map fun vr => (.jstr vr.1, vr.2)
  | 'n' :: 'u' :: 'l' :: 'l' :: r => some (.jnull, r)
  | _ => none

/-- Members of an object, starting at a key; the fuel only bounds the number
of members and is always sufficient at `length` of the remaining input. -/
def parseObjLoop : Nat → Str → Option (List (Str × JVal) × Str)
  | 0, _ => none
  | fuel + 1, s =>
    match skipW s with
    | '"' :: r =>
      match parseStrLit r with
      | none => none
      | some (k, r1) =>
        match skipW r1 with
        | ':' :: r2 =>
          match parseVal r2 with
          | none => none
          | some (v, r3) =>
            match skipW r3 with
            | ',' :: r4 =>
              match parseObjLoop fuel r4 with
              | some (kvs, rest) => some ((k, v) :: kvs, rest)
              | none => none
            | '\x7d' :: r4 => some ([(k, v)], r4)
            | _ => none
        | _ => none
    | _ => none

/-- `json.loads` on the flat objects in this model's scope. -/
def parseJson (s : Str) : Option (List (Str × JVal)) :=
  match skipW s with
  | '\x7b' :: r =>
    match skipW r with
    | '\x7d' :: r2 => if (skipW r2).isEmpty then some [] else none
    | _ =>
      match parseObjLoop r.length r with
      | some (kvs, rest) => if (skipW rest).isEmpty then some kvs else none
      | none => none
  | _ => none

/-- Code-fence stripping (main.py lines 92-93): strip, remove all
` ```json ` and ` ``` ` markers, strip again. -/
def stripFences (s : Str) : Str :=
  trimS (replaceL (String.toList "```") []
    (replaceL (String.toList "```json") [] (trimS s)))

/-- Outcome of the two external steps before JSON handling: whether
`Image.open` succeeded, and the model's response text (`none` when the model
call itself raised). -/
structure AnalyzeInput where
  imageValid : Bool
  modelResp : Option Str
deriving DecidableEq, Repr

def knownKeys : List Str :=
  [ String.toList "title", String.toList "name", String.toList "location",
    String.toList "socials", String.toList "event_date",
    String.toList "event_time", String.toList "venue",
    String.toList "hosted_department"]

/-- Dictionary lookup; later duplicate keys win, as in a Python dict built
from JSON. -/
def jsonLookup (kvs : List (Str × JVal)) (k : Str) : Option JVal :=
  match kvs.reverse.find? fun kv => kv.1 == k with
  | some kv => some kv.2
  | none => none

/-- `if extracted_data.get(k):` — false for a missing key, `null`, and the
empty string. -/
def truthyStr (v : Option JVal) : Option Str :=
  match v with
  | some (.jstr s) => if s.isEmpty then none else some s
  | _ => none

def strField (kvs : List (Str × JVal)) (k : Str) : Option Str :=
  match jsonLookup kvs k with
  | some (.jstr s) => some s
  | _ => none

/-- Date branch of the innermost `try` (main.py lines 99-103). -/
def parseDateField (kvs : List (Str × JVal)) : Except PyExc (Option Date) :=
  match truthyStr (jsonLookup kvs (String.toList "event_date")) with
  | none => .ok none
  | some v =>
    match strptimeDate v with
    | some d => .ok (some d)
    | none => .error (.valueError (String.toList "time data does not match format"))

/-- Time branch of the innermost `try` (main.py lines 106-148). -/
def parseTimeField (kvs : List (Str × JVal)) : Except PyExc (Option Time) :=
  match truthyStr (jsonLookup kvs (String.toList "event_time")) with
  | none => .ok none
  | some v =>
    match normalizeTime v with
    | .ok t => .ok (some t)
    | .error _ => .error (.valueError (String.toList "could not parse time string"))

def isValueError : PyExc → Bool
  | .valueError _ => true
  | _ => false

def isJsonDecode : PyExc → Bool
  | .jsonDecodeError => true
  | _ => false

def hasUnknownKey (kvs : List (Str × JVal)) : Bool :=
  kvs.any fun kv => !(knownKeys.contains kv.1)

/-- An `event_date`/`event_time` key holding the empty string skips parsing
(falsy) but is still handed to the `Date`/`Time` column, which the database
rejects at commit; the request fails, nothing is stored. -/
def emptyDateOrTime (kvs : List (Str × JVal)) : Bool :=
  (jsonLookup kvs (String.toList "event_date") == some (.jstr [])) ||
  (jsonLookup kvs (String.toList "event_time") == some (.jstr []))

/-- `Poster(**extracted_data)` together with the store-assigned `id` and
`created_at` (models.py lines 18-27). -/
def mkPoster (kvs : List (Str × JVal)) (d : Option Date) (t : Option Time)
    (nextId now : Nat) : Poster :=
  { id := nextId
    title := strField kvs (String.toList "title")
    name := strField kvs (String.toList "name")
    location := strField kvs (String.toList "location")
    socials := strField kvs (String.toList "socials")
    event_date := d
    event_time := t
    venue := strField kvs (String.toList "venue")
    hosted_department := strField kvs (String.toList "hosted_department")
    created_at := now }

/-- `POST /analyze-poster`: the nested `try` blocks of main.py lines 53-175.
The pair's second component is the store after the request: `db.add` and
`db.commit` run only on the all-success path, after every parse. -/
def analyzeBody (inp : AnalyzeInput) (nextId now : Nat) : Except PyExc Poster :=
  if inp.imageValid = false then .error .externalError
  else
    match inp.modelResp with
    | none => .error .externalError
    | some txt =>
      let bodyB : Except PyExc Poster :=
        match parseJson (stripFences txt) with
        | none => .error .jsonDecodeError
        | some kvs =>
          let bodyC : Except PyExc (Option Date × Option Time) :=
            match parseDateField kvs with
            | .error e => .error e
            | .ok d =>
              match parseTimeField kvs with
              | .error e => .error e
              | .ok t => .ok (d, t)
          match tryCatch bodyC isValueError
              (fun _ => .error (.httpException 400
                (String.toList "Invalid date/time format in the response"))) with
          | .error e => .error e
          | .ok dt =>
            if hasUnknownKey kvs then .error .typeError
            else if emptyDateOrTime kvs then .error .externalError
            else .ok (mkPoster kvs dt.1 dt.2 nextId now)
      tryCatch bodyB isJsonDecode
        (fun _ => .error (.httpException 500
          (String.toList "Failed to parse Gemini response as JSON")))

def analyzePoster (inp : AnalyzeInput) (nextId now : Nat) (st : List Poster) :
    Except PyExc Poster × List Poster :=
  match catchAll (analyzeBody inp nextId now) with
  | .error e => (.error e, st)
  | .ok rec => (.ok rec, st ++ [rec])

/-- One request against the whole HTTP surface. -/
inductive Op where
  | analyze (inp : AnalyzeInput) (nextId now : Nat)
  | upcoming (today : Date)
  | byLocation (today : Date) (q : Str) (upOnly : Bool)
  | byDate (ds : Str)
  | byVenue (today : Date) (q : Str) (upOnly : Bool)
  | byDepartment (today : Date) (q : Str) (upOnly : Bool)
deriving DecidableEq, Repr

inductive Resp where
  | analyzed (p : Poster)
  | events (l : List SEvent)
deriving DecidableEq, Repr

/-- Dispatch of one request: its response and the store afterwards.  Read
handlers never touch the store. -/
def step : Op → List Poster → Except PyExc Resp × List Poster
  | .analyze inp n t, st =>
    ((analyzePoster inp n t st).1.map .analyzed, (analyzePoster inp n t st).2)
  | .upcoming d, st => ((getUpcomingEvents d st).map .events, st)
  | .byLocation d q u, st => ((getEventsByLocation d q u st).map .events, st)
  | .byDate ds, st => ((getEventsByDate ds st).map .events, st)
  | .byVenue d q u, st => ((getEventsByVenue d q u st).map .events, st)
  | .byDepartment d q u, st => ((getEventsByDepartment d q u st).map .events, st)

/-! ### ILIKE patterns versus substring containment (claim C8) -/

/-- Query strings free of LIKE metacharacters. -/
abbrev noWild (q : Str) : Prop := ∀ c ∈ q, c ≠ '%' ∧ c ≠ '_' ∧ c ≠ '\\'

theorem anySuffix_iff (f : Str → Bool) (s : Str) :
    anySuffix f s = true ↔ ∃ t, t <:+ s ∧ f t = true := by
  induction s with
  | nil =>
    simp only [anySuffix]
    constructor
    · intro h
      exact ⟨[], List.suffix_refl _, h⟩
    · rintro ⟨t, ht, hf⟩
      rw [List.suffix_nil] at ht
      subst ht
      exact hf
  | cons c s ih =>
    simp only [anySuffix, Bool.or_eq_true, ih]
    constructor
    · rintro (h | ⟨t, ht, hf⟩)
      · exact ⟨c :: s, List.suffix_refl _, h⟩
      · exact ⟨t, ht.trans (List.suffix_cons c s), hf⟩
    · rintro ⟨t, ht, hf⟩
      rcases List.suffix_cons_iff.mp ht with h | h
      · subst h
        exact Or.inl hf
      · exact Or.inr ⟨t, h, hf⟩

theorem likeMatch_pct (p s : Str) :
    likeMatch ('%' :: p) s = true ↔ ∃ t, t <:+ s ∧ likeMatch p t = true := by
  rw [likeMatch, if_pos rfl, anySuffix_iff]

theorem likeMatch_lit {q : Str} (hq : noWild q) :
    ∀ t : Str, likeMatch (q ++ ['%']) t = true ↔ lowerStr q <+: lowerStr t := by
  induction q with
  | nil =>
    intro t
    constructor
    · intro _
      exact ⟨lowerStr t, rfl⟩
    · intro _
      rw [List.nil_append, likeMatch_pct]
      exact ⟨[], List.nil_suffix, rfl⟩
  | cons c q' ih =>
    intro t
    have hc := hq c (by simp)
    have hstep : likeMatch ((c :: q') ++ ['%']) t = charStep c (likeMatch (q' ++ ['%'])) t := by
      show likeMatch (c :: (q' ++ ['%'])) t = _
      rw [likeMatch, if_neg hc.1, if_neg hc.2.1]
    rw [hstep]
    cases t with
    | nil =>
      constructor
      · intro h
        simp [charStep] at h
      · intro h
        exfalso
        have hlen := h.length_le
        simp [lowerStr] at hlen
    | cons d t2 =>
      have ih2 := ih (fun x hx => hq x (by simp [hx])) t2
      simp only [charStep, lowerStr, List.map_cons, List.cons_prefix_cons,
        Bool.and_eq_true, decide_eq_true_eq]
      rw [← lowerStr, ← lowerStr, ← ih2]

/-- On wildcard-free query strings, the source's `ilike(f"%{q}%")` is exactly
case-insensitive unanchored substring containment. -/
theorem likeMatch_infix_iff {q : Str} (hq : noWild q) (v : Str) :
    likeMatch ('%' :: q ++ ['%']) v = true ↔ lowerStr q <:+: lowerStr v := by
  rw [List.cons_append, likeMatch_pct]
  constructor
  · rintro ⟨t, hts, hm⟩
    exact List.infix_iff_prefix_suffix.mpr
      ⟨lowerStr t, (likeMatch_lit hq t).mp hm, hts.map lowerChar⟩
  · intro h
    obtain ⟨t2, hpre, hsuf⟩ := List.infix_iff_prefix_suffix.mp h
    obtain ⟨u, hu⟩ := hsuf
    obtain ⟨v₁, v₂, hv, hv₁, hv₂⟩ := List.map_eq_append_iff.mp hu.symm
    refine ⟨v₂, ⟨v₁, hv.symm⟩, (likeMatch_lit hq v₂).mpr ?_⟩
    have hv₂' : lowerStr v₂ = t2 := hv₂
    rw [hv₂']
    exact hpre

/-! ### Sample data -/

def dToday : Date := ⟨2024, 5, 10⟩
def dYest : Date := ⟨2024, 5, 9⟩

def recToday : Poster :=
  ⟨1, some (String.toList "Event A"), none, some (String.toList "City Hall"),
    none, some dToday, none, some (String.toList "Main Hall"),
    some (String.toList "CS"), 0⟩

def recYest : Poster :=
  ⟨2, none, none, some (String.toList "hallway"), none, some dYest, none,
    none, none, 0⟩

def recStadium : Poster :=
  ⟨3, none, none, some (String.toList "Stadium"), none, some dToday, none,
    none, none, 0⟩

def recNoDate : Poster :=
  ⟨4, none, none, some (String.toList "City Hall"), none, none, none, none,
    none, 0⟩

def inpNotJson : AnalyzeInput := ⟨true, some (String.toList "not json")⟩

def inpBadDate : AnalyzeInput :=
  ⟨true, some (String.toList "\x7b\"event_date\": \"13/01/2024\"\x7d")⟩

def inpBadTime : AnalyzeInput :=
  ⟨true, some (String.toList "\x7b\"event_time\": \"half past noon\"\x7d")⟩

/-! ### Claim theorems -/

/-- C1: the claim says a malformed `date` path parameter, or a model-returned
`event_date`/`event_time` failing validation, is answered with HTTP 400.  In
the code both paths do raise `HTTPException(400)`, but the enclosing
`except Exception` clause catches it (`HTTPException` subclasses `Exception`)
and re-raises a 500, so the caller observes 500 on every one of these
inputs. -/
theorem C1_caller_observes_500_not_400 :
    observedStatus (getEventsByDate (String.toList "13-01-2024") []) = 500 ∧
    strptimeDate (String.toList "13-01-2024") = none ∧
    observedStatus ((analyzePoster inpBadDate 1 0 []).1) = 500 ∧
    observedStatus ((analyzePoster inpBadTime 1 0 []).1) = 500 := by
  exact ⟨by decide, by decide, by decide, by decide⟩

/-- C2: `clean_time_string` is exactly the blind substring-removal pipeline
the specification describes — lower-case, remove each of the five literal
words wherever it occurs, pad `pm`/`am`, trim — and in particular
`"atlantic"` loses its `"at"`. -/
theorem C2_cleaning_is_blind_substring_removal :
    (∀ s : Str, clean_time_string s = cleanSpec s) ∧
    clean_time_string (String.toList "atlantic") = String.toList "lantic" :=
  ⟨clean_eq_cleanSpec, by decide⟩

/-- C4 counterexample: the claim says `"half past 5"` fails with
`UnparseableTime`; the fallback regex finds the digit `5` via `re.search`
and the input parses to `05:00:00` instead. -/
theorem C4_half_past_5_parses :
    normalizeTime (String.toList "half past 5") = .ok ⟨5, 0, 0⟩ := by decide

/-- C4 (amended): normalization fails with `UnparseableTime`, carrying the
original input, exactly when no structured format matches the cleaned string
and the cleaned string contains no digit for the fallback regex to anchor
on; a digit-free irregular string such as `"half past noon"` fails. -/
theorem fbSearchPos_none_iff {s : Str} :
    fbSearchPos s = none ↔ ∀ c ∈ s, digitB c = false := by
  induction s with
  | nil => simp [fbSearchPos]
  | cons c r ih =>
    rw [fbSearchPos]
    by_cases hc : digitB c = true
    · rw [if_pos hc]
      simp [hc]
    · rw [if_neg hc]
      have hc2 : digitB c = false := by
        cases h : digitB c
        · rfl
        · exact absurd h hc
      simp [ih, hc2]

theorem C4_unparseable_iff_no_digit :
    (∀ raw : Str,
      normalizeTime raw = .error (.unparseable raw) ↔
        tryTimeFormats timeFormats (clean_time_string raw) = none ∧
        ∀ c ∈ clean_time_string raw, digitB c = false) ∧
    normalizeTime (String.toList "half past noon") =
      .error (.unparseable (String.toList "half past noon")) := by
  constructor
  · intro raw
    unfold normalizeTime
    cases h1 : tryTimeFormats timeFormats (clean_time_string raw) with
    | some t => simp
    | none =>
      cases h2 : fbSearchPos (clean_time_string raw) with
      | some t =>
        have hne : ¬ ∀ c ∈ clean_time_string raw, digitB c = false := by
          intro hall
          rw [fbSearchPos_none_iff.mpr hall] at h2
          cases h2
        cases h3 : regexFallback (clean_time_string raw) with
        | some tt => simp [hne]
        | none => simp [hne]
      | none =>
        simp only [iff_true_intro (fbSearchPos_none_iff.mp h2), true_iff, and_true]
  · decide

/-- C5: on every input the pipeline feeds it (cleaned strings), the source's
regex fallback behaves exactly as the specification describes — hour of 1-2
digits at the first digit `re.search` finds, optional two-digit minute
defaulting to 0, optional am/pm marker handled case-insensitively (`pm` adds
12 unless the hour is 12, `am` zeroes a 12), zero-padded `HH:MM` re-parsed as
24-hour time.  `fallbackSpec` is that description verbatim with a genuinely
case-insensitive marker; the two agree on every cleaned string because
cleaning lower-cases the input and re-inserts only upper-case `" AM"`/`" PM"`
blocks. -/
theorem C5_fallback_matches_spec :
    (∀ raw : Str,
      regexFallback (clean_time_string raw) = fallbackSpec (clean_time_string raw)) ∧
    regexFallback (String.toList "5 PM") = some ⟨17, 0, 0⟩ ∧
    regexFallback (String.toList "12 AM") = some ⟨0, 0, 0⟩ ∧
    regexFallback (String.toList "7.30  PM") = some ⟨7, 0, 0⟩ := by
  refine ⟨?_, by decide, by decide, by decide⟩
  intro raw
  exact fbParse_marker_eq_noMix (clean_noMix raw)

/-- C6: whenever `POST /analyze-poster` answers with an error — invalid
image, model call failure, unparseable model JSON, a bad `event_date` or
`event_time`, or a construction failure — the store is exactly what it was
before the request: `db.add`/`db.commit` run only on the all-success path. -/
theorem C6_failed_request_preserves_store :
    ∀ (inp : AnalyzeInput) (nid now : Nat) (st : List Poster) (e : PyExc),
      (analyzePoster inp nid now st).1 = Except.error e →
      (analyzePoster inp nid now st).2 = st := by
  intro inp nid now st e h
  unfold analyzePoster at h ⊢
  cases hx : catchAll (analyzeBody inp nid now) with
  | error e2 => rfl
  | ok rec =>
    rw [hx] at h
    simp at h

theorem C6_witness :
    (analyzePoster inpNotJson 1 0 [recToday]).1 =
      Except.error (PyExc.httpException 500 []) ∧
    (analyzePoster inpNotJson 1 0 [recToday]).2 = [recToday] :=
  ⟨by decide, C6_failed_request_preserves_store inpNotJson 1 0 [recToday]
    (PyExc.httpException 500 []) (by decide)⟩

/-- C3: the structured parse is exactly the seven formats in source order
with first-match-wins; every valid `h:mm AM/PM`-style input produces the
expected 24-hour time, and the claim's examples hold.  The `"12:30"`
conjuncts witness that the order is material: `%I:%M` wins over `%H:%M` and
(treating a meridiem-less 12 as midnight) yields `00:30:00`, although
`%H:%M` alone would give `12:30:00`. -/
theorem C3_formats_in_order :
    (∀ s : Str, tryTimeFormats timeFormats s =
      (strptimeTime fmt_IMp s <|> strptimeTime fmt_IMp0 s <|> strptimeTime fmt_IM s <|>
        strptimeTime fmt_HM s <|> strptimeTime fmt_Ip s <|> strptimeTime fmt_HMS s <|>
        strptimeTime fmt_IMSp s)) ∧
    (∀ h m : Nat, 1 ≤ h → h ≤ 12 → m ≤ 59 →
      normalizeTime (ampmStr h m true) = .ok ⟨if h = 12 then 12 else h + 12, m, 0⟩ ∧
      normalizeTime (ampmStr h m false) = .ok ⟨if h = 12 then 0 else h, m, 0⟩) ∧
    normalizeTime (String.toList "5:30 PM onwards") = .ok ⟨17, 30, 0⟩ ∧
    normalizeTime (String.toList "9 AM") = .ok ⟨9, 0, 0⟩ ∧
    normalizeTime (String.toList "17:30") = .ok ⟨17, 30, 0⟩ ∧
    normalizeTime (String.toList "12:30") = .ok ⟨0, 30, 0⟩ ∧
    strptimeTime fmt_HM (String.toList "12:30") = some ⟨12, 30, 0⟩ := by
  refine ⟨?_, ?_, by decide, by decide, by decide, by decide, by decide⟩
  · intro s
    simp only [timeFormats, tryTimeFormats_cons]
    rw [show tryTimeFormats [] s = none from rfl]
    cases strptimeTime fmt_IMSp s <;> rfl
  · intro h m h1 h2 hm
    have hlt : h - 1 < 12 := by omega
    have hm2 : m < 60 := by omega
    obtain ⟨hpm, ham⟩ := ampm_ball (h - 1) hlt m hm2
    have he : h - 1 + 1 = h := by omega
    rw [he] at hpm ham
    have e2 : (if h = 12 then 12 else h - 1 + 13) = if h = 12 then 12 else h + 12 := by
      split <;> omega
    rw [e2] at hpm
    exact ⟨hpm, ham⟩

theorem C3_witness :
    (1 ≤ 5 ∧ 5 ≤ 12 ∧ 30 ≤ 59) ∧
    normalizeTime (ampmStr 5 30 true) = .ok ⟨17, 30, 0⟩ := by
  refine ⟨⟨by decide, by decide, by decide⟩, ?_⟩
  have h := (C3_formats_in_order.2.1 5 30 (by decide) (by decide) (by decide)).1
  simpa using h

/-- C7: `queryUpcoming` returns exactly the stored records whose
`event_date` is present and at least today, ascending by date; a record
dated today round-trips, one dated yesterday does not. -/
theorem C7_upcoming_query :
    (∀ (today : Date) (st : List Poster) (r : Poster),
      r ∈ queryUpcomingStore today st ↔
        r ∈ st ∧ ∃ d, r.event_date = some d ∧ dateKey today ≤ dateKey d) ∧
    (∀ (today : Date) (st : List Poster),
      (queryUpcomingStore today st).Pairwise dateLe) ∧
    queryUpcomingStore dToday [recToday] = [recToday] ∧
    queryUpcomingStore dToday [recYest] = [] := by
  refine ⟨?_, ?_, by decide, by decide⟩
  · intro today st r
    rw [queryUpcomingStore, sortByDate, List.mem_insertionSort, List.mem_filter]
    constructor
    · rintro ⟨hmem, hup⟩
      refine ⟨hmem, ?_⟩
      rw [upcomingB] at hup
      cases hd : r.event_date with
      | none =>
        rw [hd] at hup
        simp at hup
      | some d =>
        rw [hd] at hup
        exact ⟨d, rfl, of_decide_eq_true hup⟩
    · rintro ⟨hmem, d, hd, hle⟩
      refine ⟨hmem, ?_⟩
      rw [upcomingB, hd]
      exact decide_eq_true hle
  · intro today st
    exact List.sorted_insertionSort dateLe _

theorem fieldLike_iff {q : Str} (hq : noWild q) (f : Option Str) :
    fieldLike f q = true ↔ ∃ l, f = some l ∧ lowerStr q <:+: lowerStr l := by
  cases f with
  | none => simp [fieldLike]
  | some v =>
    rw [fieldLike, likeMatch_infix_iff hq]
    simp

theorem upcomingGuard_iff (today : Date) (upOnly : Bool) (r : Poster) :
    (!upOnly || upcomingB today r) = true ↔
      (upOnly = true → ∃ d, r.event_date = some d ∧ dateKey today ≤ dateKey d) := by
  cases upOnly with
  | false => simp
  | true =>
    simp only [Bool.not_true, Bool.false_or, forall_const]
    rw [upcomingB]
    cases hd : r.event_date with
    | none => simp
    | some d => simp

theorem queryField_mem {q : Str} (hq : noWild q) (fld : Poster → Option Str)
    (today : Date) (upOnly : Bool) (st : List Poster) (r : Poster) :
    (r ∈ sortByDate (st.filter fun p => fieldLike (fld p) q && (!upOnly || upcomingB today p)) ↔
      r ∈ st ∧ (∃ l, fld r = some l ∧ lowerStr q <:+: lowerStr l) ∧
        (upOnly = true → ∃ d, r.event_date = some d ∧ dateKey today ≤ dateKey d)) := by
  rw [sortByDate, List.mem_insertionSort, List.mem_filter, Bool.and_eq_true,
    fieldLike_iff hq, upcomingGuard_iff]

/-- C8 counterexample: the user's query string is interpolated into an
`ILIKE` pattern, so LIKE metacharacters keep their meaning.  With the query
`"%"`, the record with location `"Stadium"` is returned although `"Stadium"`
does not contain `"%"` as a substring — refuting the claim for arbitrary
query strings. -/
theorem C8_wildcard_counterexample :
    recStadium ∈ queryByLocationStore dToday (String.toList "%") false [recStadium] ∧
    ¬ lowerStr (String.toList "%") <:+: lowerStr (String.toList "Stadium") := by
  constructor
  · decide
  · intro h
    have h2 : '%' ∈ lowerStr (String.toList "Stadium") := h.subset (by decide)
    revert h2
    decide

/-- C8 (amended): for every query string free of the LIKE metacharacters
`%`, `_` and `\`, the three substring endpoints' queries return exactly the
stored records whose respective field is present and contains the query
case-insensitively (anywhere, unanchored), restricted to `event_date ≥ today`
when `upcoming_only` is set, ascending by `event_date`; `"hall"` matches
`"City Hall"` and `"hallway"` but not `"Stadium"`. -/
theorem C8_substring_queries :
    queryByLocationStore dToday (String.toList "hall") false
      [recToday, recYest, recStadium] = [recYest, recToday] ∧
    ∀ q : Str, noWild q →
      ∀ (today : Date) (upOnly : Bool) (st : List Poster) (r : Poster),
        (r ∈ queryByLocationStore today q upOnly st ↔
          r ∈ st ∧ (∃ l, r.location = some l ∧ lowerStr q <:+: lowerStr l) ∧
            (upOnly = true → ∃ d, r.event_date = some d ∧ dateKey today ≤ dateKey d)) ∧
        (r ∈ queryByVenueStore today q upOnly st ↔
          r ∈ st ∧ (∃ l, r.venue = some l ∧ lowerStr q <:+: lowerStr l) ∧
            (upOnly = true → ∃ d, r.event_date = some d ∧ dateKey today ≤ dateKey d)) ∧
        (r ∈ queryByDepartmentStore today q upOnly st ↔
          r ∈ st ∧ (∃ l, r.hosted_department = some l ∧ lowerStr q <:+: lowerStr l) ∧
            (upOnly = true → ∃ d, r.event_date = some d ∧ dateKey today ≤ dateKey d)) ∧
        (queryByLocationStore today q upOnly st).Pairwise dateLe ∧
        (queryByVenueStore today q upOnly st).Pairwise dateLe ∧
        (queryByDepartmentStore today q upOnly st).Pairwise dateLe := by
  refine ⟨by decide, ?_⟩
  intro q hq today upOnly st r
  refine ⟨queryField_mem hq (fun p => p.location) today upOnly st r,
    queryField_mem hq (fun p => p.venue) today upOnly st r,
    queryField_mem hq (fun p => p.hosted_department) today upOnly st r,
    List.sorted_insertionSort dateLe _, List.sorted_insertionSort dateLe _,
    List.sorted_insertionSort dateLe _⟩

theorem C8_witness :
    recYest ∈ queryByLocationStore dToday (String.toList "hall") false
      [recToday, recYest, recStadium] ∧
    recStadium ∉ queryByLocationStore dToday (String.toList "hall") false
      [recToday, recYest, recStadium] := by
  have hY := (C8_substring_queries.2 (String.toList "hall") (by decide) dToday
    false [recToday, recYest, recStadium] recYest).1
  have hS := (C8_substring_queries.2 (String.toList "hall") (by decide) dToday
    false [recToday, recYest, recStadium] recStadium).1
  constructor
  · apply hY.mpr
    refine ⟨by decide, ⟨String.toList "hallway", by decide, by decide⟩, ?_⟩
    intro h
    cases h
  · intro hmem
    obtain ⟨-, ⟨l, hl, hinf⟩, -⟩ := hS.mp hmem
    have hl2 : some (String.toList "Stadium") = some l := hl
    have hl3 : l = String.toList "Stadium" := (Option.some.inj hl2).symm
    subst hl3
    revert hinf
    decide

/-- C9: the only state transition of the whole HTTP surface is an append by
a successful `POST /analyze-poster`; every request leaves the existing rows
— all their fields, `id` and `created_at` included — untouched, and no
operation updates or deletes. -/
theorem C9_records_immutable :
    ∀ (op : Op) (st : List Poster),
      st <+: (step op st).2 ∧
      ((step op st).2 = st ∨
        ∃ rec, (step op st).2 = st ++ [rec] ∧ ∃ inp n t, op = Op.analyze inp n t) := by
  intro op st
  cases op with
  | analyze inp n t =>
    simp only [step]
    unfold analyzePoster
    cases hx : catchAll (analyzeBody inp n t) with
    | error e => exact ⟨⟨[], by simp⟩, Or.inl rfl⟩
    | ok rec => exact ⟨⟨[rec], rfl⟩, Or.inr ⟨rec, rfl, inp, n, t, rfl⟩⟩
  | upcoming d => exact ⟨⟨[], by simp [step]⟩, Or.inl rfl⟩
  | byLocation d q u => exact ⟨⟨[], by simp [step]⟩, Or.inl rfl⟩
  | byDate ds => exact ⟨⟨[], by simp [step]⟩, Or.inl rfl⟩
  | byVenue d q u => exact ⟨⟨[], by simp [step]⟩, Or.inl rfl⟩
  | byDepartment d q u => exact ⟨⟨[], by simp [step]⟩, Or.inl rfl⟩

theorem serializeAll_error_of_none {l : List Poster}
    (h : ∃ r ∈ l, r.event_date = none) :
    serializeAll l = .error .attributeError := by
  induction l with
  | nil =>
    obtain ⟨r, hr, -⟩ := h
    cases hr
  | cons p ps ih =>
    rw [serializeAll]
    cases hd : p.event_date with
    | none =>
      have hse : serializeEvent p = .error .attributeError := by
        rw [serializeEvent, hd]
      rw [hse]
    | some d =>
      have hse : serializeEvent p = .ok ⟨p.id, p.title, p.name, p.location,
          p.socials, d, p.event_time, p.venue, p.hosted_department⟩ := by
        rw [serializeEvent, hd]
      rw [hse]
      have hex : ∃ r ∈ ps, r.event_date = none := by
        obtain ⟨r, hr, hn⟩ := h
        rcases List.mem_cons.mp hr with rfl | hr2
        · rw [hd] at hn
          cases hn
        · exact ⟨r, hr2, hn⟩
      rw [ih hex]

theorem serializeAll_ok_of_dates {l : List Poster}
    (h : ∀ r ∈ l, r.event_date ≠ none) : ∃ v, serializeAll l = .ok v := by
  induction l with
  | nil => exact ⟨[], rfl⟩
  | cons p ps ih =>
    obtain ⟨v, hv⟩ := ih fun r hr => h r (List.mem_cons_of_mem p hr)
    cases hd : p.event_date with
    | none => exact absurd hd (h p (by simp))
    | some d =>
      have hse : serializeEvent p = .ok ⟨p.id, p.title, p.name, p.location,
          p.socials, d, p.event_time, p.venue, p.hosted_department⟩ := by
        rw [serializeEvent, hd]
      exact ⟨⟨p.id, p.title, p.name, p.location, p.socials, d, p.event_time,
        p.venue, p.hosted_department⟩ :: v, by rw [serializeAll, hse, hv]⟩

theorem upcomingB_date_ne_none {today : Date} {p : Poster}
    (h : upcomingB today p = true) : p.event_date ≠ none := by
  intro hn
  rw [upcomingB, hn] at h
  simp at h

/-- C10: `event_date.isoformat()` is called unconditionally during response
serialization, while only `event_time` is guarded for absence.  So whenever a
substring query with `upcoming_only = false` matches a stored record whose
`event_date` is NULL, the whole request fails with HTTP 500 instead of
returning the matches; with `upcoming_only = true`, and on
`/events/upcoming` and `/events/by-date`, NULL-dated records are silently
excluded by the date filter and the endpoints succeed. -/
theorem C10_absent_event_date :
    (∀ (today : Date) (q : Str) (st : List Poster),
      (∃ r ∈ queryByLocationStore today q false st, r.event_date = none) →
      getEventsByLocation today q false st = .error (.httpException 500 [])) ∧
    (∀ (today : Date) (q : Str) (st : List Poster),
      (∃ r ∈ queryByVenueStore today q false st, r.event_date = none) →
      getEventsByVenue today q false st = .error (.httpException 500 [])) ∧
    (∀ (today : Date) (q : Str) (st : List Poster),
      (∃ r ∈ queryByDepartmentStore today q false st, r.event_date = none) →
      getEventsByDepartment today q false st = .error (.httpException 500 [])) ∧
    (∀ (today : Date) (q : Str) (st : List Poster) (r : Poster),
      r ∈ queryByLocationStore today q true st → r.event_date ≠ none) ∧
    (∀ (today : Date) (st : List Poster) (r : Poster),
      r ∈ queryUpcomingStore today st → r.event_date ≠ none) ∧
    (∀ (d : Date) (st : List Poster) (r : Poster),
      r ∈ queryByDateStore d st → r.event_date ≠ none) ∧
    (∀ (today : Date) (q : Str) (st : List Poster),
      ∃ v, getEventsByLocation today q true st = .ok v) ∧
    (∀ (today : Date) (st : List Poster),
      ∃ v, getUpcomingEvents today st = .ok v) := by
  have hup : ∀ (today : Date) (q : Str) (st : List Poster) (r : Poster),
      r ∈ queryByLocationStore today q true st → r.event_date ≠ none := by
    intro today q st r hmem
    rw [queryByLocationStore, sortByDate, List.mem_insertionSort,
      List.mem_filter] at hmem
    have h2 := hmem.2
    simp only [Bool.not_true, Bool.false_or, Bool.and_eq_true] at h2
    exact upcomingB_date_ne_none h2.2
  have hupc : ∀ (today : Date) (st : List Poster) (r : Poster),
      r ∈ queryUpcomingStore today st → r.event_date ≠ none := by
    intro today st r hmem
    rw [queryUpcomingStore, sortByDate, List.mem_insertionSort,
      List.mem_filter] at hmem
    exact upcomingB_date_ne_none hmem.2
  have hbd : ∀ (d : Date) (st : List Poster) (r : Poster),
      r ∈ queryByDateStore d st → r.event_date ≠ none := by
    intro d st r hmem
    rw [queryByDateStore, sortByTime, List.mem_insertionSort,
      List.mem_filter] at hmem
    have h2 := of_decide_eq_true hmem.2
    rw [h2]
    intro hc
    cases hc
  refine ⟨?_, ?_, ?_, hup, hupc, hbd, ?_, ?_⟩
  · intro today q st h
    rw [getEventsByLocation, serializeAll_error_of_none h]
    rfl
  · intro today q st h
    rw [getEventsByVenue, serializeAll_error_of_none h]
    rfl
  · intro today q st h
    rw [getEventsByDepartment, serializeAll_error_of_none h]
    rfl
  · intro today q st
    obtain ⟨v, hv⟩ := serializeAll_ok_of_dates
      (fun r hr => hup today q st r hr)
    exact ⟨v, by rw [getEventsByLocation, hv]; rfl⟩
  · intro today st
    obtain ⟨v, hv⟩ := serializeAll_ok_of_dates
      (fun r hr => hupc today st r hr)
    exact ⟨v, by rw [getUpcomingEvents, hv]; rfl⟩

theorem C10_witness :
    (∃ r ∈ queryByLocationStore dToday (String.toList "hall") false [recNoDate],
      r.event_date = none) ∧
    getEventsByLocation dToday (String.toList "hall") false [recNoDate] =
      .error (.httpException 500 []) :=
  ⟨by decide, C10_absent_event_date.1 dToday (String.toList "hall") [recNoDate]
    (by decide)⟩
